import Mathlib

/-!
# Huffman codes for a grayscale histogram (`src/huffman/huffman.cpp`)

A shallow embedding of the Huffman subsystem: the node type, the comparator,
the recursive code generator, and the stages of `main` (histogram, queue of
leaves, merge loop, code generation, export rows, statistics).

Modelling conventions.
* `HuffmanNode*` is the inductive type `HuffmanNode`; the constructor `null`
  is `nullptr`, `node v p l r` is a pointer to a struct with the four fields.
* `float` weights are rationals. The stages `probabilityOf`, `pushLeaves`,
  `mergeStep`, ... compute them without rounding (`histogram[i] / totalPixels`
  in `ℚ`); the stages `probabilityOfRounded`, `pushLeavesRounded`,
  `mergeStepRounded`, ... round the result of every `float` operation by a
  rounding `fl`, which is `roundFloat` (binary32, round to nearest, ties to
  even) for the program as compiled. The entropy, which needs `log2`, is a
  real number.
* `int` counts are natural numbers (no wrap-around is modelled).
* `std::string` is `List Char`.
* `std::priority_queue` is library code: the program is written against
  `PriorityQueue`, an interface carrying the contract of the standard
  (`top` is an element that the comparator puts below no other element,
  `pop` removes it, `push` adds one element).  `top` of an empty queue is
  undefined behaviour in C++ and is `none` here.
* `std::unordered_map` is an association list with unique keys; the order in
  which a range-for visits it is unspecified by the standard and is a
  parameter `iter` of the exporter.
-/

namespace Huffman

/-! ## Data model -/

/-- A `HuffmanNode*`: either `nullptr` or a node with `pixelValue`,
`probability`, `left` and `right`. -/
inductive HuffmanNode where
  | null : HuffmanNode
  | node (pixelValue : Nat) (probability : ℚ) (left right : HuffmanNode) : HuffmanNode
  deriving DecidableEq

namespace HuffmanNode

/-- The test `!p` on a pointer. -/
def isNull : HuffmanNode → Bool
  | null => true
  | node _ _ _ _ => false

/-- Field access `p->probability` (dereferencing `nullptr` never happens in
the program; it reads as `0` here). -/
def probability : HuffmanNode → ℚ
  | null => 0
  | node _ p _ _ => p

/-- Field access `p->pixelValue`. -/
def pixelValue : HuffmanNode → Nat
  | null => 0
  | node v _ _ _ => v

/-- Field access `p->left`. -/
def left : HuffmanNode → HuffmanNode
  | null => null
  | node _ _ l _ => l

/-- Field access `p->right`. -/
def right : HuffmanNode → HuffmanNode
  | null => null
  | node _ _ _ r => r

end HuffmanNode

/-- The constructor `HuffmanNode(uchar val, float prob)`: both children are
`nullptr`; `val` is converted to `uchar`. -/
def newNode (val : Nat) (prob : ℚ) : HuffmanNode :=
  .node (val % 256) prob .null .null

/-- The comparator `CompareNode::operator()`:
`a->probability > b->probability`. -/
def CompareNode (a b : HuffmanNode) : Bool :=
  decide (a.probability > b.probability)

/-- The contract of `std::priority_queue<HuffmanNode*, vector<HuffmanNode*>, CompareNode>`.
`elems` is the multiset of stored pointers (a specification-only view). -/
structure PriorityQueue where
  /-- The states of the queue. -/
  Q : Type
  /-- The default-constructed queue. -/
  empty : Q
  /-- The member `push`. -/
  push : Q → HuffmanNode → Q
  /-- The member `top`; `none` on an empty queue. -/
  top : Q → Option HuffmanNode
  /-- The member `pop`. -/
  pop : Q → Q
  /-- The member `size`. -/
  size : Q → Nat
  /-- The stored elements. -/
  elems : Q → Multiset HuffmanNode
  elems_empty : elems empty = 0
  elems_push : ∀ q x, elems (push q x) = x ::ₘ elems q
  size_eq : ∀ q, size q = Multiset.card (elems q)
  top_isSome : ∀ q, elems q ≠ 0 → (top q).isSome = true
  top_none : ∀ q, elems q = 0 → top q = none
  top_mem : ∀ q x, top q = some x → x ∈ elems q
  top_least : ∀ q x, top q = some x → ∀ y ∈ elems q, CompareNode x y = false
  elems_pop : ∀ q x, top q = some x → elems (pop q) = (elems q).erase x

/-- An entry of the code table: `pair<int, string>`. -/
abbrev CodeEntry := Nat × List Char

/-- The table `unordered_map<uchar, pair<int, string>>`: key-value pairs with
pairwise distinct keys, in order of first insertion. -/
abbrev CodeMap := List (Nat × CodeEntry)

/-- The assignment `m[k] = v`: overwrite the value of an existing key, or add
the key. -/
def CodeMap.assign : CodeMap → Nat → CodeEntry → CodeMap
  | [], k, v => [(k, v)]
  | (k', v') :: m, k, v =>
    if k' = k then (k', v) :: m else (k', v') :: CodeMap.assign m k v

/-- The lookup `m.find(k)`; `none` is `m.end()`. -/
def CodeMap.find : CodeMap → Nat → Option CodeEntry
  | [], _ => none
  | (k', v') :: m, k => if k' = k then some v' else CodeMap.find m k

/-! ## `generateHuffmanCodes` -/

/-- The function `generateHuffmanCodes(root, code, huffmanCodes)`; the map is
passed in and returned. -/
def generateHuffmanCodes : HuffmanNode → List Char → CodeMap → CodeMap
  | .null, _, huffmanCodes => huffmanCodes
  | .node pixelValue _ left right, code, huffmanCodes =>
    let m₁ :=
      if left.isNull && right.isNull then
        CodeMap.assign huffmanCodes pixelValue (code.length, code)
      else huffmanCodes
    let m₂ := generateHuffmanCodes left (code ++ ['0']) m₁
    generateHuffmanCodes right (code ++ ['1']) m₂

/-! ## The stages of `main` -/

/-- The image returned by `imread`: its extents and the sample at `(i, j)`
(an `uchar`, read modulo 256). -/
structure Mat where
  rows : Nat
  cols : Nat
  at_ : Nat → Nat → Nat

/-- The method `Mat::empty()`: no element. -/
def Mat.empty (image : Mat) : Bool :=
  image.rows * image.cols == 0

/-- The histogram is `vector<int> histogram(256, 0)`; entry `i` is read as
`histogram i`. -/
abbrev Histogram := Nat → Nat

/-- The statement `histogram[pixel]++`. -/
def Histogram.incr (histogram : Histogram) (pixel : Nat) : Histogram :=
  fun k => if k = pixel then histogram k + 1 else histogram k

/-- The two nested loops of `main` that fill the histogram. -/
def computeHistogram (image : Mat) : Histogram :=
  (List.range image.rows).foldl
    (fun h i => (List.range image.cols).foldl
      (fun h j => Histogram.incr h (image.at_ i j % 256)) h)
    (fun _ => 0)

/-- The product `image.rows * image.cols`. -/
def totalPixels (image : Mat) : Nat :=
  image.rows * image.cols

/-- The probability `static_cast<float>(histogram[i]) / totalPixels`. -/
def probabilityOf (histogram : Histogram) (totalPixels : Nat) (i : Nat) : ℚ :=
  (histogram i : ℚ) / (totalPixels : ℚ)

/-- The loop of `main` that pushes one leaf per symbol with a positive count. -/
def pushLeaves (P : PriorityQueue) (histogram : Histogram) (totalPixels : Nat) : P.Q :=
  (List.range 256).foldl
    (fun pq i =>
      if histogram i > 0 then
        P.push pq (newNode i (probabilityOf histogram totalPixels i))
      else pq)
    P.empty

/-- The body of the merge loop: two `top`/`pop` pairs, then the combined node
is pushed. -/
def mergeStep (P : PriorityQueue) (pq : P.Q) : Option P.Q := do
  let left ← P.top pq
  let pq := P.pop pq
  let right ← P.top pq
  let pq := P.pop pq
  let combined := HuffmanNode.node 0 (left.probability + right.probability) left right
  pure (P.push pq combined)

/-- The loop `while (pq.size() > 1) { ... }`, run for at most `fuel` iterations.
The result is the final queue together with the number of iterations made;
`none` when the fuel runs out or a `top` hits an empty queue. -/
def mergeLoop (P : PriorityQueue) : Nat → P.Q → Option (P.Q × Nat)
  | 0, pq => if P.size pq > 1 then none else some (pq, 0)
  | fuel + 1, pq =>
    if P.size pq > 1 then
      match mergeStep P pq with
      | none => none
      | some pq' => (mergeLoop P fuel pq').map (fun r => (r.1, r.2 + 1))
    else some (pq, 0)

/-- The queue when the merge loop has ended, with the number of merges. Each
iteration shrinks the queue by one, so `size` iterations are enough. -/
def buildQueue (P : PriorityQueue) (histogram : Histogram) (totalPixels : Nat) :
    Option (P.Q × Nat) :=
  let pq := pushLeaves P histogram totalPixels
  mergeLoop P (P.size pq) pq

/-- The pointer `root = pq.top()` after the merge loop. -/
def huffmanRoot (P : PriorityQueue) (histogram : Histogram) (totalPixels : Nat) :
    Option HuffmanNode :=
  (buildQueue P histogram totalPixels).bind (fun r => P.top r.1)

/-- The table `huffmanCodes` after `generateHuffmanCodes(root, "", huffmanCodes)`. -/
def huffmanCodes (P : PriorityQueue) (histogram : Histogram) (totalPixels : Nat) :
    Option CodeMap :=
  (huffmanRoot P histogram totalPixels).map (fun root => generateHuffmanCodes root [] [])

/-- The accumulator `avgCodeLength` after the statistics loop. -/
def avgCodeLength (histogram : Histogram) (totalPixels : Nat) (huffmanCodes : CodeMap) : ℚ :=
  (List.range 256).foldl
    (fun acc i =>
      if histogram i > 0 then
        match CodeMap.find huffmanCodes (i % 256) with
        | some e => acc + probabilityOf histogram totalPixels i * (e.1 : ℚ)
        | none => acc
      else acc)
    0

/-- The accumulator `entropy` after the statistics loop, over the reals. -/
noncomputable def entropy (histogram : Histogram) (totalPixels : Nat) : ℝ :=
  (List.range 256).foldl
    (fun acc i =>
      if histogram i > 0 then
        acc - (probabilityOf histogram totalPixels i : ℝ) *
          Real.logb 2 (probabilityOf histogram totalPixels i : ℝ)
      else acc)
    0

/-- The manipulator `setw(w)` applied to the next item: the item is padded
with blanks on the left up to width `w`, and is never cut. -/
def setw (w : Nat) (item : List Char) : List Char :=
  List.replicate (w - item.length) ' ' ++ item

/-- One data row of the exported table: symbol, code length and code in
columns of width 12, 13 and 15, then a newline. -/
def formatRow (entry : Nat × CodeEntry) : List Char :=
  setw 12 (Nat.repr entry.1).toList ++ setw 13 (Nat.repr entry.2.1).toList ++
    setw 15 entry.2.2 ++ ['\n']

/-- The two header lines of the exported table. -/
def tableHeader : List (List Char) :=
  ["Pixel Value | Code Length | Huffman Code\n".toList,
   "---------------------------------------\n".toList]

/-- The entries in the order in which `for (const auto& pair : huffmanCodes)`
visits them; `iter` is the iteration order of the map implementation. -/
def exportedEntries (iter : CodeMap → CodeMap) (huffmanCodes : CodeMap) : CodeMap :=
  iter huffmanCodes

/-- The symbol values of the data rows of the exported table, top to bottom. -/
def exportedSymbols (iter : CodeMap → CodeMap) (huffmanCodes : CodeMap) : List Nat :=
  (exportedEntries iter huffmanCodes).map Prod.fst

/-- The text written to `huffman_codes.txt`. -/
def tableFile (iter : CodeMap → CodeMap) (huffmanCodes : CodeMap) : List (List Char) :=
  tableHeader ++ (exportedEntries iter huffmanCodes).map formatRow

/-- A value of type `float` as far as division needs it: a number, an
infinity, or not-a-number. -/
inductive FloatValue where
  | finite (x : ℝ) : FloatValue
  | infinite : FloatValue
  | nan : FloatValue

/-- The division of two finite `float` values: `0 / 0` is not-a-number, any
other division by zero is an infinity. -/
noncomputable def floatDiv (x y : ℝ) : FloatValue :=
  if y = 0 then (if x = 0 then FloatValue.nan else FloatValue.infinite)
  else FloatValue.finite (x / y)

/-- The value `compressionRatio = entropy / avgCodeLength`, which `main` prints
in the line `Compression Ratio: `. -/
noncomputable def compressionRatio (histogram : Histogram) (totalPixels : Nat)
    (huffmanCodes : CodeMap) : FloatValue :=
  floatDiv (entropy histogram totalPixels) (avgCodeLength histogram totalPixels huffmanCodes : ℝ)

/-- What `CommandLineParser` reports: `has("help")`, `check()` and the
positional argument `get<String>(0)`. The parser of OpenCV records an error
only when a parameter is read with `get`, and it ignores options it does not
know; `main` calls `check()` before the first `get`, so in a run of the
program `check` is `true`. -/
structure CommandLine where
  help : Bool
  check : Bool
  imagePath : String

/-- The surroundings of a run: what the file at a path decodes to (`none` when
it cannot be read or decoded) and whether `huffman_codes.txt` can be opened
for writing. -/
structure World where
  source : String → Option Mat
  canOpen : Bool

/-- The call `imread(imagePath, IMREAD_GRAYSCALE)`: a source that cannot be
read gives the empty matrix. -/
def imread (w : World) (imagePath : String) : Mat :=
  match w.source imagePath with
  | some image => image
  | none => { rows := 0, cols := 0, at_ := fun _ _ => 0 }

/-- The pieces of text `main` sends to `cout`. -/
inductive Printed where
  | helpMessage : Printed
  | tableWritten : Printed
  | statistics : Printed
  deriving DecidableEq

/-- The observable result of a run of `main`. -/
structure Result where
  exitCode : Int
  cerr : Option String
  cout : List Printed
  file : Option (List (List Char))
  deriving DecidableEq

/-- The function `main`. The result is `none` when the run meets undefined
behaviour (`top` of an empty queue). -/
def main (P : PriorityQueue) (iter : CodeMap → CodeMap) (cmd : CommandLine) (w : World) :
    Option Result :=
  if cmd.help || !cmd.check then
    some { exitCode := 0, cerr := none, cout := [Printed.helpMessage], file := none }
  else if cmd.imagePath.isEmpty then
    some { exitCode := -1, cerr := some "Error: No image path provided!", cout := [],
           file := none }
  else
    let image := imread w cmd.imagePath
    if image.empty then
      some { exitCode := -1, cerr := some "Error: Could not open or find the image!",
             cout := [], file := none }
    else
      match huffmanCodes P (computeHistogram image) (totalPixels image) with
      | none => none
      | some codes =>
        if !w.canOpen then
          some { exitCode := -1, cerr := some "Error: Could not open file for writing!",
                 cout := [], file := none }
        else
          some { exitCode := 0, cerr := none,
                 cout := [Printed.tableWritten, Printed.statistics],
                 file := some (tableFile iter codes) }

/-! ## A queue that meets the contract -/

/-- A queue kept as the list of its elements in order of insertion: `top` is
the first element of least probability, `pop` removes it. -/
def listQueue : PriorityQueue where
  Q := List HuffmanNode
  empty := []
  push q x := q ++ [x]
  top q := List.argmin HuffmanNode.probability q
  pop q := match List.argmin HuffmanNode.probability q with
    | none => q
    | some x => q.erase x
  size q := q.length
  elems q := (q : Multiset HuffmanNode)
  elems_empty := rfl
  elems_push q x := by
    show ((q ++ [x] : List HuffmanNode) : Multiset HuffmanNode) = x ::ₘ (q : Multiset HuffmanNode)
    rw [Multiset.cons_coe]
    exact Multiset.coe_eq_coe.mpr (List.perm_append_singleton x q)
  size_eq q := by simp
  top_isSome q h := by
    cases hq : List.argmin HuffmanNode.probability q with
    | none => exact absurd (by simpa using List.argmin_eq_none.mp hq) h
    | some x => exact (congrArg Option.isSome hq).trans rfl
  top_none q h := by
    have : q = [] := by simpa using h
    subst this
    rfl
  top_mem q x h := Multiset.mem_coe.mpr (List.argmin_mem h)
  top_least q x h y hy := by
    have := List.le_of_mem_argmin (Multiset.mem_coe.mp hy) h
    simpa [CompareNode] using this
  elems_pop q x h := by
    simp only [h]
    exact (Multiset.coe_erase q x).symm

/-! ## Specification-level views of a tree -/

/-- The leaves below a pointer, left to right, each with its symbol, its
weight and the path that `generateHuffmanCodes` holds when it reaches the leaf
(`code` is the path of the pointer itself). -/
def leafInfo : HuffmanNode → List Char → List (Nat × ℚ × List Char)
  | .null, _ => []
  | .node v p l r, code =>
    (if l.isNull && r.isNull then [(v, p, code)] else []) ++
      (leafInfo l (code ++ ['0']) ++ leafInfo r (code ++ ['1']))

/-- The table entry recorded at a leaf. -/
def toEntry (x : Nat × ℚ × List Char) : Nat × CodeEntry :=
  (x.1, (x.2.2.length, x.2.2))

/-- The table after a sequence of assignments. -/
def assignAll (m : CodeMap) (es : List (Nat × CodeEntry)) : CodeMap :=
  es.foldl (fun m e => CodeMap.assign m e.1 e.2) m

/-- The leaves below a pointer, left to right, each with symbol and weight. -/
def leaves : HuffmanNode → List (Nat × ℚ)
  | .null => []
  | .node v p l r =>
    (if l.isNull && r.isNull then [(v, p)] else []) ++ (leaves l ++ leaves r)

/-- A proper tree: not `nullptr`, and every node has either no child or two
proper subtrees. -/
def IsTree : HuffmanNode → Prop
  | .null => False
  | .node _ _ l r => (l = .null ∧ r = .null) ∨ (IsTree l ∧ IsTree r)

/-- The symbols with a positive count, in ascending order. -/
def observed (histogram : Histogram) : List Nat :=
  (List.range 256).filter (fun i => histogram i > 0)

/-- The alphabet size `A`: the number of symbols with a positive count. -/
def alphabetSize (histogram : Histogram) : Nat :=
  (observed histogram).length

/-- The total count `N` of a histogram. -/
def histogramTotal (histogram : Histogram) : Nat :=
  ((List.range 256).map histogram).sum

/-- The leaves all trees of a forest, as a multiset. -/
def forestLeaves (F : Multiset HuffmanNode) : Multiset (Nat × ℚ) :=
  F.bind (fun t => (leaves t : Multiset (Nat × ℚ)))

/-- One merge on the multiset of queued trees: two trees of least weight
leave, the combined node enters. -/
def HStep (F F' : Multiset HuffmanNode) : Prop :=
  ∃ l r rest, F = l ::ₘ r ::ₘ rest ∧
    (∀ y ∈ F, l.probability ≤ y.probability) ∧
    (∀ y ∈ r ::ₘ rest, r.probability ≤ y.probability) ∧
    F' = HuffmanNode.node 0 (l.probability + r.probability) l r ::ₘ rest

/-- A table is prefix-free: for two distinct symbols of the table, the bit
string of the one is not a prefix of the bit string of the other. -/
def PrefixFree (table : CodeMap) : Prop :=
  ∀ s t es et, s ≠ t → CodeMap.find table s = some es → CodeMap.find table t = some et →
    ¬ es.2 <+: et.2

/-- The Kraft sum of a table: the sum of `2^(-codeLength)` over its entries. -/
def kraftSum (table : CodeMap) : ℚ :=
  (table.map (fun e => (1 / 2 : ℚ) ^ e.2.1)).sum

/-- A histogram with two observed symbols: 10 and 20, fifty times each. -/
def twoSymbols : Histogram :=
  fun i => if i = 10 then 50 else if i = 20 then 50 else 0

/-- A histogram with three observed symbols: 10 once, 20 twice, 30 four times. -/
def threeSymbols : Histogram :=
  fun i => if i = 10 then 1 else if i = 20 then 2 else if i = 30 then 4 else 0

/-- The weighted path length of a tree: the sum over its leaves of weight
times depth. -/
def cost (t : HuffmanNode) : ℚ :=
  ((leafInfo t []).map (fun x => x.2.1 * (x.2.2.length : ℚ))).sum

/-- A grid of `rows` by `cols` samples, all of value `v`. -/
def constantImage (rows cols v : Nat) : Mat :=
  { rows := rows, cols := cols, at_ := fun _ _ => v }

/-- A histogram with two observed symbols: 10 once and 20 twice. -/
def lightFirst : Histogram :=
  fun i => if i = 10 then 1 else if i = 20 then 2 else 0

/-- A histogram with two observed symbols: 10 twice and 20 once. -/
def heavyFirst : Histogram :=
  fun i => if i = 10 then 2 else if i = 20 then 1 else 0

/-- A command line that names an image and does not ask for help. -/
def plainRun : CommandLine :=
  { help := false, check := true, imagePath := "image.png" }

/-- Surroundings in which every path decodes to the grid `image`. -/
def worldOf (image : Mat) : World :=
  { source := fun _ => some image, canOpen := true }

/-- Surroundings in which no path can be read. -/
def unreadableWorld : World :=
  { source := fun _ => none, canOpen := true }

/-- The Kraft sum of a multiset of (weight, length) pairs. -/
def pairsKraft (xs : Multiset (ℚ × ℕ)) : ℚ :=
  (xs.map (fun x => (1 / 2 : ℚ) ^ x.2)).sum

/-- The weighted length of a multiset of (weight, length) pairs. -/
def pairsCost (xs : Multiset (ℚ × ℕ)) : ℚ :=
  (xs.map (fun x => x.1 * (x.2 : ℚ))).sum

/-- The total weight of the leaves below a pointer. -/
def leafWeight (t : HuffmanNode) : ℚ :=
  ((leaves t).map Prod.snd).sum

/-- The sum of the weighted path lengths of the trees of a forest. -/
def forestCost (F : Multiset HuffmanNode) : ℚ :=
  (F.map cost).sum

/-- A tree of the queue is sound: it is a proper tree, its `probability` is
the total weight of its leaves, and this weight is not negative. -/
def Sound (t : HuffmanNode) : Prop :=
  IsTree t ∧ t.probability = leafWeight t ∧ 0 ≤ t.probability

/-- The number of cells of a grid whose sample (an `uchar`) is `s`. -/
def cellCount (image : Mat) (s : Nat) : Nat :=
  ((List.range image.rows).map
    (fun i => ((List.range image.cols).filter (fun j => image.at_ i j % 256 = s)).length)).sum

/-- The leaves below a pointer, left to right, each with its symbol and the
path from the pointer to the leaf: `'0'` for a step to the left child, `'1'`
for a step to the right child. -/
def leafPaths : HuffmanNode → List (Nat × List Char)
  | .null => []
  | .node v _ l r =>
    (if l.isNull && r.isNull then [(v, [])] else []) ++
      ((leafPaths l).map (fun x => (x.1, '0' :: x.2)) ++
        (leafPaths r).map (fun x => (x.1, '1' :: x.2)))

/-- The height of a tree: the greatest number of steps from the pointer down
to a leaf. -/
def height : HuffmanNode → Nat
  | .null => 0
  | .node _ _ l r => if l.isNull && r.isNull then 0 else 1 + max (height l) (height r)

/-- At every internal node the weight of the left child is at most the weight
of the right child, and the weight of the node is the sum of the two. -/
def Ordered : HuffmanNode → Prop
  | .null => True
  | .node _ p l r =>
    (l = .null ∧ r = .null) ∨
      (l.probability ≤ r.probability ∧ p = l.probability + r.probability ∧
        Ordered l ∧ Ordered r)

/-- The function `freeHuffmanTree(root)`; the result is the number of nodes it
deletes. -/
def freeHuffmanTree : HuffmanNode → Nat
  | .null => 0
  | .node _ _ left right => freeHuffmanTree left + freeHuffmanTree right + 1

/-- The greatest number of nested active calls of `generateHuffmanCodes` or of
`freeHuffmanTree` started on a pointer. Both return at once on `nullptr` (one
call) and otherwise call themselves on `left` and on `right`. -/
def callDepth : HuffmanNode → Nat
  | .null => 1
  | .node _ _ left right => 1 + max (callDepth left) (callDepth right)

/-- The number of nodes of a tree. -/
def nodeCount : HuffmanNode → Nat
  | .null => 0
  | .node _ _ l r => nodeCount l + nodeCount r + 1

/-- The table entry that records a leaf with its path: the length of the path
and the path. -/
def pathEntry (x : Nat × List Char) : Nat × CodeEntry :=
  (x.1, (x.2.length, x.2))

/-- A small tree with leaves for the symbols 1, 2 and 3. -/
def sampleTree : HuffmanNode :=
  .node 0 1 (.node 1 (1 / 2) .null .null)
    (.node 0 (1 / 2) (.node 2 (1 / 4) .null .null) (.node 3 (1 / 4) .null .null))

/-- A histogram of 65536 samples with 17 observed symbols: symbol 0 once and
symbol `i` (1 ≤ i ≤ 16) `2^(i-1)` times. -/
def deepHistogram : Histogram :=
  fun i => if i = 0 then 1 else if i ≤ 16 then 2 ^ (i - 1) else 0

/-- The code length that a table holds for a symbol (0 when the symbol has no
entry). -/
def codeLength (table : CodeMap) (s : Nat) : Nat :=
  match CodeMap.find table s with
  | some e => e.1
  | none => 0

/-- A histogram with four observed symbols: 40 four times, 30 twice, 20 once
and 10 once. -/
def skewed : Histogram :=
  fun i => if i = 40 then 4 else if i = 30 then 2 else if i = 20 then 1
    else if i = 10 then 1 else 0

/-! ## Single-precision weights -/

theorem HuffmanNode.isNull_iff (t : HuffmanNode) : t.isNull = true ↔ t = .null := by
  cases t <;> simp [HuffmanNode.isNull]

theorem generateHuffmanCodes_eq_assignAll (t : HuffmanNode) (code : List Char) (m : CodeMap) :
    generateHuffmanCodes t code m = assignAll m ((leafInfo t code).map toEntry) := by
  induction t generalizing code m with
  | null => rfl
  | node v p l r ihl ihr =>
    simp only [generateHuffmanCodes, leafInfo, ihl, ihr, assignAll, List.map_append,
      List.foldl_append]
    by_cases h : (l.isNull && r.isNull) = true
    · simp [h, toEntry]
    · simp [h]

theorem CodeMap.assign_of_not_mem (m : CodeMap) (k : Nat) (v : CodeEntry)
    (h : k ∉ m.map Prod.fst) : CodeMap.assign m k v = m ++ [(k, v)] := by
  induction m with
  | nil => rfl
  | cons a m ih =>
    obtain ⟨k', v'⟩ := a
    simp only [List.map_cons, List.mem_cons, not_or] at h
    simp only [CodeMap.assign, List.cons_append]
    rw [if_neg (fun e => h.1 e.symm), ih h.2]

theorem assignAll_of_nodup (m : CodeMap) (es : List (Nat × CodeEntry))
    (h : ((m ++ es).map Prod.fst).Nodup) : assignAll m es = m ++ es := by
  induction es generalizing m with
  | nil => simp [assignAll]
  | cons e es ih =>
    have hk : e.1 ∉ m.map Prod.fst := by
      simp only [List.map_append, List.map_cons] at h
      have := (List.nodup_append.mp h).2.2
      intro hm
      exact this hm (by simp)
    have h' : (((m ++ [e]) ++ es).map Prod.fst).Nodup := by
      simpa using h
    have := ih (m ++ [e]) h'
    simp only [assignAll, List.foldl_cons] at this ⊢
    rw [CodeMap.assign_of_not_mem m e.1 e.2 hk]
    simpa using this

theorem CodeMap.find_eq_none_iff (m : CodeMap) (k : Nat) :
    CodeMap.find m k = none ↔ k ∉ m.map Prod.fst := by
  induction m with
  | nil => simp [CodeMap.find]
  | cons a m ih =>
    obtain ⟨k', v'⟩ := a
    by_cases h : k' = k
    · simp [CodeMap.find, h]
    · simp only [CodeMap.find, if_neg h, ih, List.map_cons, List.mem_cons, not_or]
      exact ⟨fun hm => ⟨fun e => h e.symm, hm⟩, fun hm => hm.2⟩

theorem CodeMap.find_eq_some_iff (m : CodeMap) (hm : (m.map Prod.fst).Nodup) (k : Nat)
    (v : CodeEntry) : CodeMap.find m k = some v ↔ (k, v) ∈ m := by
  induction m with
  | nil => simp [CodeMap.find]
  | cons a m ih =>
    obtain ⟨k', v'⟩ := a
    simp only [List.map_cons, List.nodup_cons] at hm
    by_cases h : k' = k
    · subst h
      simp only [CodeMap.find, if_true, Option.some.injEq, List.mem_cons, Prod.mk.injEq,
        true_and]
      constructor
      · intro e; exact Or.inl e.symm
      · rintro (e | hmem)
        · exact e.symm
        · exact absurd (List.mem_map_of_mem Prod.fst hmem) hm.1
    · simp only [CodeMap.find, if_neg h, ih hm.2, List.mem_cons, Prod.mk.injEq]
      constructor
      · intro hmem; exact Or.inr hmem
      · rintro (⟨e, -⟩ | hmem)
        · exact absurd e.symm h
        · exact hmem

theorem leafInfo_leaves (t : HuffmanNode) (code : List Char) :
    (leafInfo t code).map (fun x => (x.1, x.2.1)) = leaves t := by
  induction t generalizing code with
  | null => rfl
  | node v p l r ihl ihr =>
    simp only [leafInfo, leaves, List.map_append, ihl, ihr]
    by_cases h : (l.isNull && r.isNull) = true <;> simp [h]

theorem leafInfo_code (t : HuffmanNode) (code : List Char) :
    leafInfo t code = (leafInfo t []).map (fun x => (x.1, x.2.1, code ++ x.2.2)) := by
  induction t generalizing code with
  | null => rfl
  | node v p l r ihl ihr =>
    simp only [leafInfo, List.map_append, List.nil_append]
    rw [ihl (code ++ ['0']), ihr (code ++ ['1']), ihl ['0'], ihr ['1']]
    by_cases h : (l.isNull && r.isNull) = true <;>
      simp [h, List.map_map, Function.comp_def, List.append_assoc]

theorem IsTree.ne_null {t : HuffmanNode} (h : IsTree t) : t ≠ .null := by
  intro e; subst e; exact h

theorem IsTree.isNull {t : HuffmanNode} (h : IsTree t) : t.isNull = false := by
  cases t with
  | null => exact absurd h (by simp [IsTree])
  | node _ _ _ _ => rfl

theorem leaves_node_of_isTree (v : Nat) (p : ℚ) {l r : HuffmanNode} (hl : IsTree l) :
    leaves (.node v p l r) = leaves l ++ leaves r := by
  simp [leaves, hl.isNull]

theorem leaves_newNode (i : Nat) (p : ℚ) : leaves (newNode i p) = [(i % 256, p)] := by
  simp [newNode, leaves, HuffmanNode.isNull]

theorem isTree_newNode (i : Nat) (p : ℚ) : IsTree (newNode i p) := by
  simp [newNode, IsTree]

/-! ## The queue of leaves -/

theorem mem_observed (histogram : Histogram) (i : Nat) :
    i ∈ observed histogram ↔ i < 256 ∧ 0 < histogram i := by
  simp [observed]

theorem observed_nodup (histogram : Histogram) : (observed histogram).Nodup :=
  (List.nodup_range 256).filter _

/-- The leaf pushed for symbol `i`. -/
theorem pushLeaves_elems_aux (P : PriorityQueue) (histogram : Histogram) (totalPixels : Nat)
    (is : List Nat) (q : P.Q) :
    P.elems (is.foldl
      (fun pq i =>
        if histogram i > 0 then
          P.push pq (newNode i (probabilityOf histogram totalPixels i))
        else pq) q) =
      (((is.filter (fun i => histogram i > 0)).map
        (fun i => newNode i (probabilityOf histogram totalPixels i)) : List HuffmanNode) :
          Multiset HuffmanNode) + P.elems q := by
  induction is generalizing q with
  | nil => simp
  | cons i is ih =>
    simp only [List.foldl_cons]
    rw [ih]
    by_cases h : histogram i > 0
    · rw [if_pos h, P.elems_push, List.filter_cons_of_pos (by simpa using h), List.map_cons,
        ← Multiset.cons_coe, Multiset.cons_add, Multiset.add_cons]
    · rw [if_neg h, List.filter_cons_of_neg (by simpa using h)]

theorem pushLeaves_elems (P : PriorityQueue) (histogram : Histogram) (totalPixels : Nat) :
    P.elems (pushLeaves P histogram totalPixels) =
      (((observed histogram).map
        (fun i => newNode i (probabilityOf histogram totalPixels i)) : List HuffmanNode) :
          Multiset HuffmanNode) := by
  unfold pushLeaves observed
  rw [pushLeaves_elems_aux, P.elems_empty, add_zero]

theorem pushLeaves_size (P : PriorityQueue) (histogram : Histogram) (totalPixels : Nat) :
    P.size (pushLeaves P histogram totalPixels) = alphabetSize histogram := by
  rw [P.size_eq, pushLeaves_elems]
  simp [alphabetSize]

/-! ## The merge loop -/

theorem PriorityQueue.top_le (P : PriorityQueue) (q : P.Q) (x : HuffmanNode)
    (h : P.top q = some x) : ∀ y ∈ P.elems q, x.probability ≤ y.probability := by
  intro y hy
  have := P.top_least q x h y hy
  simpa [CompareNode] using this

theorem PriorityQueue.top_of_card_pos (P : PriorityQueue) (q : P.Q)
    (h : 0 < Multiset.card (P.elems q)) : ∃ x, P.top q = some x := by
  have hne : P.elems q ≠ 0 := by
    intro e; rw [e] at h; simp at h
  exact Option.isSome_iff_exists.mp (P.top_isSome q hne)

theorem HStep.card {F F' : Multiset HuffmanNode} (h : HStep F F') :
    Multiset.card F = Multiset.card F' + 1 := by
  obtain ⟨l, r, rest, hF, -, -, hF'⟩ := h
  subst hF hF'
  simp

/-- One iteration of the loop body on a queue of at least two trees. -/
theorem mergeStep_spec (P : PriorityQueue) (q : P.Q) (h : 1 < Multiset.card (P.elems q)) :
    ∃ l r, P.top q = some l ∧ P.top (P.pop q) = some r ∧
      mergeStep P q = some (P.push (P.pop (P.pop q))
        (HuffmanNode.node 0 (l.probability + r.probability) l r)) ∧
      P.elems q = l ::ₘ r ::ₘ P.elems (P.pop (P.pop q)) ∧
      HStep (P.elems q) (P.elems (P.push (P.pop (P.pop q))
        (HuffmanNode.node 0 (l.probability + r.probability) l r))) := by
  obtain ⟨l, hl⟩ := P.top_of_card_pos q (by omega)
  have hlm := P.top_mem q l hl
  have hpop := P.elems_pop q l hl
  have hc1 : Multiset.card (P.elems (P.pop q)) = Multiset.card (P.elems q) - 1 := by
    rw [hpop, Multiset.card_erase_of_mem hlm]; rfl
  obtain ⟨r, hr⟩ := P.top_of_card_pos (P.pop q) (by omega)
  have hrm := P.top_mem (P.pop q) r hr
  have hpop2 := P.elems_pop (P.pop q) r hr
  have e1 : P.elems q = l ::ₘ P.elems (P.pop q) := by
    rw [hpop, Multiset.cons_erase hlm]
  have e2 : P.elems (P.pop q) = r ::ₘ P.elems (P.pop (P.pop q)) := by
    rw [hpop2, Multiset.cons_erase hrm]
  have e3 : P.elems q = l ::ₘ r ::ₘ P.elems (P.pop (P.pop q)) := by
    rw [← e2]; exact e1
  refine ⟨l, r, hl, hr, ?_, e3, ?_⟩
  · simp [mergeStep, hl, hr]
  · refine ⟨l, r, P.elems (P.pop (P.pop q)), e3, P.top_le q l hl, ?_, P.elems_push _ _⟩
    rw [← e2]
    exact P.top_le (P.pop q) r hr

theorem mergeLoop_spec (P : PriorityQueue) (fuel : Nat) (q : P.Q)
    (hfuel : Multiset.card (P.elems q) ≤ fuel + 1) (hpos : 0 < Multiset.card (P.elems q)) :
    ∃ q', mergeLoop P fuel q = some (q', Multiset.card (P.elems q) - 1) ∧
      Multiset.card (P.elems q') = 1 ∧
      Relation.ReflTransGen HStep (P.elems q) (P.elems q') := by
  induction fuel generalizing q with
  | zero =>
    have h1 : Multiset.card (P.elems q) = 1 := by omega
    refine ⟨q, ?_, h1, Relation.ReflTransGen.refl⟩
    simp [mergeLoop, P.size_eq, h1]
  | succ fuel ih =>
    by_cases h : 1 < Multiset.card (P.elems q)
    · obtain ⟨l, r, -, -, hstep, -, hH⟩ := mergeStep_spec P q h
      have hc := hH.card
      obtain ⟨q', hq', hcard, hrun⟩ :=
        ih (P.push (P.pop (P.pop q)) (HuffmanNode.node 0 (l.probability + r.probability) l r))
          (by omega) (by omega)
      refine ⟨q', ?_, hcard, Relation.ReflTransGen.head hH hrun⟩
      simp only [mergeLoop, P.size_eq, gt_iff_lt, h, if_true, hstep, hq', Option.map_some']
      congr 2
      omega
    · have h1 : Multiset.card (P.elems q) = 1 := by omega
      refine ⟨q, ?_, h1, Relation.ReflTransGen.refl⟩
      simp [mergeLoop, P.size_eq, h1]

theorem mergeLoop_fuel_succ (P : PriorityQueue) (fuel : Nat) (q : P.Q) (res : P.Q × Nat)
    (h : mergeLoop P fuel q = some res) : mergeLoop P (fuel + 1) q = some res := by
  induction fuel generalizing q res with
  | zero =>
    simp only [mergeLoop] at h ⊢
    by_cases hs : P.size q > 1
    · simp [hs] at h
    · simpa [hs] using h
  | succ fuel ih =>
    rw [mergeLoop] at h ⊢
    by_cases hs : P.size q > 1
    · simp only [hs, if_true] at h ⊢
      cases hm : mergeStep P q with
      | none => simp [hm] at h
      | some pq' =>
        simp only [hm] at h ⊢
        cases hr : mergeLoop P fuel pq' with
        | none => simp [hr] at h
        | some r' =>
          rw [ih pq' r' hr]
          rw [hr] at h
          exact h
    · simpa [hs] using h

theorem mergeLoop_fuel_le (P : PriorityQueue) (fuel fuel' : Nat) (q : P.Q) (res : P.Q × Nat)
    (h : mergeLoop P fuel q = some res) (hle : fuel ≤ fuel') :
    mergeLoop P fuel' q = some res := by
  induction hle with
  | refl => exact h
  | step _ ih => exact mergeLoop_fuel_succ P _ q res ih

/-! ## Invariants of the merge loop -/

theorem forestLeaves_cons (t : HuffmanNode) (F : Multiset HuffmanNode) :
    forestLeaves (t ::ₘ F) = (leaves t : Multiset (Nat × ℚ)) + forestLeaves F := by
  simp [forestLeaves]

theorem forestLeaves_singleton (t : HuffmanNode) :
    forestLeaves {t} = (leaves t : Multiset (Nat × ℚ)) := by
  simp [forestLeaves]

theorem forestLeaves_coe_newNode (f : Nat → ℚ) (is : List Nat) :
    forestLeaves ((is.map (fun i => newNode i (f i)) : List HuffmanNode) : Multiset HuffmanNode) =
      ((is.map (fun i => (i % 256, f i)) : List (Nat × ℚ)) : Multiset (Nat × ℚ)) := by
  induction is with
  | nil => simp [forestLeaves]
  | cons i is ih =>
    rw [List.map_cons, ← Multiset.cons_coe, forestLeaves_cons, ih, leaves_newNode]
    rfl

theorem HStep.isTree {F F' : Multiset HuffmanNode} (h : HStep F F')
    (hF : ∀ t ∈ F, IsTree t) : ∀ t ∈ F', IsTree t := by
  obtain ⟨l, r, rest, e, -, -, e'⟩ := h
  subst e e'
  intro t ht
  rcases Multiset.mem_cons.mp ht with rfl | ht
  · exact Or.inr ⟨hF l (by simp), hF r (by simp)⟩
  · exact hF t (by simp [ht])

theorem HStep.forestLeaves_eq {F F' : Multiset HuffmanNode} (h : HStep F F')
    (hF : ∀ t ∈ F, IsTree t) : forestLeaves F' = forestLeaves F := by
  obtain ⟨l, r, rest, e, -, -, e'⟩ := h
  subst e e'
  rw [forestLeaves_cons, forestLeaves_cons, forestLeaves_cons,
    leaves_node_of_isTree 0 _ (hF l (by simp)), ← Multiset.coe_add, add_assoc]

theorem hrun_isTree {F F' : Multiset HuffmanNode} (h : Relation.ReflTransGen HStep F F')
    (hF : ∀ t ∈ F, IsTree t) : ∀ t ∈ F', IsTree t := by
  induction h with
  | refl => exact hF
  | tail _ hs ih => exact hs.isTree ih

theorem hrun_forestLeaves {F F' : Multiset HuffmanNode} (h : Relation.ReflTransGen HStep F F')
    (hF : ∀ t ∈ F, IsTree t) : forestLeaves F' = forestLeaves F := by
  induction h with
  | refl => rfl
  | tail hr hs ih => rw [hs.forestLeaves_eq (hrun_isTree hr hF), ih]

/-! ## The root -/

theorem alphabetSize_pos (histogram : Histogram) (h : 0 < histogramTotal histogram) :
    0 < alphabetSize histogram := by
  unfold alphabetSize
  rw [List.length_pos]
  intro hnil
  have hz : ∀ i ∈ List.range 256, histogram i = 0 := by
    intro i hi
    by_contra hne
    have : i ∈ observed histogram :=
      (mem_observed histogram i).mpr ⟨List.mem_range.mp hi, Nat.pos_of_ne_zero hne⟩
    rw [hnil] at this
    exact absurd this (List.not_mem_nil i)
  have : histogramTotal histogram = 0 := by
    unfold histogramTotal
    apply List.sum_eq_zero
    intro x hx
    obtain ⟨i, hi, rfl⟩ := List.mem_map.mp hx
    exact hz i hi
  omega

theorem observed_map_mod (histogram : Histogram) (f : Nat → ℚ) :
    (observed histogram).map (fun i => (i % 256, f i)) =
      (observed histogram).map (fun i => (i, f i)) := by
  apply List.map_congr_left
  intro i hi
  rw [Nat.mod_eq_of_lt ((mem_observed histogram i).mp hi).1]

/-- What the tree construction yields for a nonempty alphabet. -/
theorem huffmanRoot_spec (P : PriorityQueue) (histogram : Histogram) (totalPixels : Nat)
    (hA : 0 < alphabetSize histogram) :
    ∃ q root,
      (∀ fuel, alphabetSize histogram - 1 ≤ fuel →
        mergeLoop P fuel (pushLeaves P histogram totalPixels) =
          some (q, alphabetSize histogram - 1)) ∧
      buildQueue P histogram totalPixels = some (q, alphabetSize histogram - 1) ∧
      P.elems q = {root} ∧
      huffmanRoot P histogram totalPixels = some root ∧
      IsTree root ∧
      (leaves root).Perm
        ((observed histogram).map (fun i => (i, probabilityOf histogram totalPixels i))) ∧
      Relation.ReflTransGen HStep (P.elems (pushLeaves P histogram totalPixels)) {root} := by
  have hcard : Multiset.card (P.elems (pushLeaves P histogram totalPixels)) =
      alphabetSize histogram := by
    rw [← P.size_eq, pushLeaves_size]
  obtain ⟨q, hq, hq1, hrun⟩ :=
    mergeLoop_spec P (alphabetSize histogram - 1) (pushLeaves P histogram totalPixels)
      (by omega) (by omega)
  rw [hcard] at hq
  obtain ⟨root, hroot⟩ := P.top_of_card_pos q (by omega)
  have hmem := P.top_mem q root hroot
  obtain ⟨a, ha⟩ := Multiset.card_eq_one.mp hq1
  have hqe : P.elems q = {root} := by
    rw [ha] at hmem ⊢
    rw [Multiset.mem_singleton.mp hmem]
  have hbuild : buildQueue P histogram totalPixels = some (q, alphabetSize histogram - 1) := by
    unfold buildQueue
    simp only [pushLeaves_size]
    exact mergeLoop_fuel_le P _ _ _ _ hq (by omega)
  have hinit : ∀ t ∈ P.elems (pushLeaves P histogram totalPixels), IsTree t := by
    intro t ht
    rw [pushLeaves_elems] at ht
    obtain ⟨i, -, rfl⟩ := List.mem_map.mp (Multiset.mem_coe.mp ht)
    exact isTree_newNode _ _
  rw [hqe] at hrun
  refine ⟨q, root, fun fuel hf => mergeLoop_fuel_le P _ _ _ _ hq hf, hbuild, hqe, ?_, ?_, ?_, hrun⟩
  · simp [huffmanRoot, hbuild, hroot]
  · exact hrun_isTree hrun hinit root (by simp)
  · have h := hrun_forestLeaves hrun hinit
    rw [forestLeaves_singleton, pushLeaves_elems, forestLeaves_coe_newNode,
      observed_map_mod] at h
    exact Multiset.coe_eq_coe.mp h

/-! ## The code table -/

theorem leafInfo_keys (t : HuffmanNode) (code : List Char) :
    ((leafInfo t code).map toEntry).map Prod.fst = (leaves t).map Prod.fst := by
  rw [← leafInfo_leaves t code, List.map_map, List.map_map]
  rfl

theorem generateHuffmanCodes_of_nodup (t : HuffmanNode)
    (h : ((leaves t).map Prod.fst).Nodup) :
    generateHuffmanCodes t [] [] = (leafInfo t []).map toEntry := by
  rw [generateHuffmanCodes_eq_assignAll, assignAll_of_nodup, List.nil_append]
  rw [List.nil_append, leafInfo_keys]
  exact h

theorem leafInfo_extends (t : HuffmanNode) (code : List Char) :
    ∀ x ∈ leafInfo t code, ∃ w, x.2.2 = code ++ w := by
  intro x hx
  rw [leafInfo_code] at hx
  obtain ⟨y, -, rfl⟩ := List.mem_map.mp hx
  exact ⟨y.2.2, rfl⟩

theorem leafInfo_pairwise (t : HuffmanNode) (code : List Char) :
    (leafInfo t code).Pairwise (fun x y => ¬ x.2.2 <+: y.2.2 ∧ ¬ y.2.2 <+: x.2.2) := by
  induction t generalizing code with
  | null => simp [leafInfo]
  | node v p l r ihl ihr =>
    by_cases h : (l.isNull && r.isNull) = true
    · have hl : l = .null := (HuffmanNode.isNull_iff l).mp (by simp at h; exact h.1)
      have hr : r = .null := (HuffmanNode.isNull_iff r).mp (by simp at h; exact h.2)
      subst hl hr
      simp [leafInfo, HuffmanNode.isNull]
    · simp only [leafInfo, h, if_false, List.nil_append, Bool.false_eq_true]
      rw [List.pairwise_append]
      refine ⟨ihl _, ihr _, ?_⟩
      intro x hx y hy
      obtain ⟨u, hu⟩ := leafInfo_extends l _ x hx
      obtain ⟨w, hw⟩ := leafInfo_extends r _ y hy
      rw [hu, hw]
      constructor
      · rintro ⟨z, hz⟩
        simp only [List.append_assoc, List.singleton_append, List.cons_append] at hz
        have := List.append_cancel_left hz
        simp at this
      · rintro ⟨z, hz⟩
        simp only [List.append_assoc, List.singleton_append, List.cons_append] at hz
        have := List.append_cancel_left hz
        simp at this

theorem kraft_leafInfo (t : HuffmanNode) (ht : IsTree t) (code : List Char) :
    ((leafInfo t code).map (fun x => (1 / 2 : ℚ) ^ x.2.2.length)).sum =
      (1 / 2 : ℚ) ^ code.length := by
  induction t generalizing code with
  | null => exact absurd ht (by simp [IsTree])
  | node v p l r ihl ihr =>
    rcases ht with ⟨hl, hr⟩ | ⟨hl, hr⟩
    · subst hl hr
      simp [leafInfo, HuffmanNode.isNull]
    · simp only [leafInfo, hl.isNull, Bool.false_and, Bool.false_eq_true, if_false,
        List.nil_append, List.map_append, List.sum_append, ihl hl, ihr hr,
        List.length_append, List.length_singleton]
      ring

/-- The root and the table of a histogram with at least one observed symbol. -/
theorem huffmanCodes_spec (P : PriorityQueue) (histogram : Histogram) (totalPixels : Nat)
    (hA : 0 < alphabetSize histogram) :
    ∃ root, huffmanRoot P histogram totalPixels = some root ∧ IsTree root ∧
      (leaves root).Perm
        ((observed histogram).map (fun i => (i, probabilityOf histogram totalPixels i))) ∧
      ((leaves root).map Prod.fst).Nodup ∧
      huffmanCodes P histogram totalPixels = some ((leafInfo root []).map toEntry) := by
  obtain ⟨q, root, -, -, -, hroot, htree, hperm, -⟩ :=
    huffmanRoot_spec P histogram totalPixels hA
  have hnd : ((leaves root).map Prod.fst).Nodup := by
    have h := (hperm.map Prod.fst).nodup_iff
    rw [h, List.map_map]
    exact (observed_nodup histogram).map (fun a b hab => hab)
  refine ⟨root, hroot, htree, hperm, hnd, ?_⟩
  simp [huffmanCodes, hroot, generateHuffmanCodes_of_nodup root hnd]

theorem find_leafInfo (t : HuffmanNode) (h : ((leaves t).map Prod.fst).Nodup) (k : Nat)
    (e : CodeEntry) :
    CodeMap.find ((leafInfo t []).map toEntry) k = some e ↔
      ∃ x ∈ leafInfo t [], x.1 = k ∧ e = (x.2.2.length, x.2.2) := by
  rw [CodeMap.find_eq_some_iff _ (by rw [leafInfo_keys]; exact h)]
  constructor
  · intro hm
    obtain ⟨x, hx, hxe⟩ := List.mem_map.mp hm
    simp only [toEntry, Prod.mk.injEq] at hxe
    exact ⟨x, hx, hxe.1, hxe.2.symm⟩
  · rintro ⟨x, hx, rfl, rfl⟩
    exact List.mem_map.mpr ⟨x, hx, rfl⟩

theorem prefixFree_leafInfo (t : HuffmanNode) (h : ((leaves t).map Prod.fst).Nodup) :
    PrefixFree ((leafInfo t []).map toEntry) := by
  intro s u es eu hsu hs hu
  obtain ⟨x, hx, rfl, rfl⟩ := (find_leafInfo t h _ _).mp hs
  obtain ⟨y, hy, rfl, rfl⟩ := (find_leafInfo t h _ _).mp hu
  have hpw := leafInfo_pairwise t []
  have hsym : Symmetric (fun x y : Nat × ℚ × List Char =>
      ¬ x.2.2 <+: y.2.2 ∧ ¬ y.2.2 <+: x.2.2) := fun a b hab => ⟨hab.2, hab.1⟩
  have hxy : x ≠ y := fun e => hsu (by rw [e])
  exact (hpw.forall hsym hx hy hxy).1

/-! ## Claims on the tree and the table -/

/-- C1: for every histogram with N > 0, the pipeline produces a code table,
and that table is prefix-free: for two distinct symbols in it, the bit string
of one is not a prefix of the bit string of the other. -/
theorem huffmanCodes_prefixFree (P : PriorityQueue) (histogram : Histogram) (totalPixels : Nat)
    (hN : 0 < totalPixels) (hsum : histogramTotal histogram = totalPixels) :
    ∃ table, huffmanCodes P histogram totalPixels = some table ∧ PrefixFree table := by
  obtain ⟨root, -, -, -, hnd, htable⟩ :=
    huffmanCodes_spec P histogram totalPixels (alphabetSize_pos histogram (by omega))
  exact ⟨_, htable, prefixFree_leafInfo root hnd⟩

set_option maxRecDepth 100000 in
theorem huffmanCodes_prefixFree_witness :
    0 < 7 ∧ histogramTotal threeSymbols = 7 ∧
      ∃ table, huffmanCodes listQueue threeSymbols 7 = some table ∧ PrefixFree table :=
  ⟨by decide, by decide,
    huffmanCodes_prefixFree listQueue threeSymbols 7 (by decide) (by decide)⟩

/-- C3: for every histogram with N > 0, the Kraft sum of the generated code
table, the sum of 2^(-codeLength) over its entries, is at most 1 and is equal
to 1. -/
theorem huffmanCodes_kraft (P : PriorityQueue) (histogram : Histogram) (totalPixels : Nat)
    (hN : 0 < totalPixels) (hsum : histogramTotal histogram = totalPixels) :
    ∃ table, huffmanCodes P histogram totalPixels = some table ∧
      kraftSum table ≤ 1 ∧ kraftSum table = 1 := by
  obtain ⟨root, -, htree, -, -, htable⟩ :=
    huffmanCodes_spec P histogram totalPixels (alphabetSize_pos histogram (by omega))
  have h : kraftSum ((leafInfo root []).map toEntry) = 1 := by
    have := kraft_leafInfo root htree []
    simp only [List.length_nil, pow_zero] at this
    rw [← this, kraftSum, List.map_map]
    rfl
  exact ⟨_, htable, le_of_eq h, h⟩

set_option maxRecDepth 100000 in
theorem huffmanCodes_kraft_witness :
    0 < 7 ∧ histogramTotal threeSymbols = 7 ∧
      ∃ table, huffmanCodes listQueue threeSymbols 7 = some table ∧
        kraftSum table ≤ 1 ∧ kraftSum table = 1 :=
  ⟨by decide, by decide, huffmanCodes_kraft listQueue threeSymbols 7 (by decide) (by decide)⟩

/-- C4: for every histogram with N > 0, a symbol has an entry in the generated
code table exactly when it is one of the 256 symbols and its count is positive;
the keys of the table are pairwise distinct (one code per symbol); the number
of entries and the number of leaves of the tree are both the number of symbols
with a positive count; and the symbol of every leaf has a positive count. -/
theorem huffmanCodes_domain (P : PriorityQueue) (histogram : Histogram) (totalPixels : Nat)
    (hN : 0 < totalPixels) (hsum : histogramTotal histogram = totalPixels) :
    ∃ root table, huffmanRoot P histogram totalPixels = some root ∧
      huffmanCodes P histogram totalPixels = some table ∧
      (∀ s, (∃ e, CodeMap.find table s = some e) ↔ s < 256 ∧ 0 < histogram s) ∧
      (table.map Prod.fst).Nodup ∧
      table.length = alphabetSize histogram ∧
      (leaves root).length = alphabetSize histogram ∧
      (∀ x ∈ leaves root, x.1 < 256 ∧ 0 < histogram x.1) := by
  obtain ⟨root, hroot, -, hperm, hnd, htable⟩ :=
    huffmanCodes_spec P histogram totalPixels (alphabetSize_pos histogram (by omega))
  have hkeys : ((leafInfo root []).map toEntry).map Prod.fst = (leaves root).map Prod.fst :=
    leafInfo_keys root []
  have hmem : ∀ s, s ∈ (leaves root).map Prod.fst ↔ s < 256 ∧ 0 < histogram s := by
    intro s
    rw [(hperm.map Prod.fst).mem_iff, List.map_map, ← mem_observed]
    simp
  refine ⟨root, _, hroot, htable, ?_, ?_, ?_, ?_, ?_⟩
  · intro s
    rw [← hmem s, ← hkeys, ← not_iff_not, ← CodeMap.find_eq_none_iff]
    cases CodeMap.find ((leafInfo root []).map toEntry) s <;> simp
  · rw [hkeys]; exact hnd
  · have := congrArg List.length hkeys
    simp only [List.length_map] at this
    rw [List.length_map, this, hperm.length_eq, List.length_map]
    rfl
  · rw [hperm.length_eq, List.length_map]
    rfl
  · intro x hx
    exact (hmem x.1).mp (List.mem_map_of_mem Prod.fst hx)

set_option maxRecDepth 100000 in
theorem huffmanCodes_domain_witness :
    0 < 7 ∧ histogramTotal threeSymbols = 7 ∧
      ∃ root table, huffmanRoot listQueue threeSymbols 7 = some root ∧
        huffmanCodes listQueue threeSymbols 7 = some table ∧
        (∀ s, (∃ e, CodeMap.find table s = some e) ↔ s < 256 ∧ 0 < threeSymbols s) ∧
        (table.map Prod.fst).Nodup ∧
        table.length = alphabetSize threeSymbols ∧
        (leaves root).length = alphabetSize threeSymbols ∧
        (∀ x ∈ leaves root, x.1 < 256 ∧ 0 < threeSymbols x.1) :=
  ⟨by decide, by decide, huffmanCodes_domain listQueue threeSymbols 7 (by decide) (by decide)⟩

theorem mergeLoop_count_le (P : PriorityQueue) (fuel : Nat) (q : P.Q) (res : P.Q × Nat)
    (h : mergeLoop P fuel q = some res) : res.2 ≤ fuel := by
  induction fuel generalizing q res with
  | zero =>
    simp only [mergeLoop] at h
    by_cases hs : P.size q > 1
    · simp [hs] at h
    · simp only [hs, if_false, Option.some.injEq] at h
      subst h; exact le_refl _
  | succ fuel ih =>
    rw [mergeLoop] at h
    by_cases hs : P.size q > 1
    · simp only [hs, if_true] at h
      cases hm : mergeStep P q with
      | none => simp [hm] at h
      | some pq' =>
        simp only [hm] at h
        cases hr : mergeLoop P fuel pq' with
        | none => simp [hr] at h
        | some r' =>
          rw [hr] at h
          simp only [Option.map_some', Option.some.injEq] at h
          subst h
          exact Nat.succ_le_succ (ih pq' r' hr)
    · simp only [hs, if_false, Option.some.injEq] at h
      subst h; exact Nat.zero_le _

/-- C6: for every histogram with alphabet size A >= 1, the merge loop ends
after exactly A - 1 iterations (with any fuel of at least A - 1 it returns the
same queue and the count A - 1, with less fuel it has not ended), the final
queue holds exactly one node, and that node is the root. -/
theorem mergeLoop_merges (P : PriorityQueue) (histogram : Histogram) (totalPixels : Nat)
    (hA : 1 ≤ alphabetSize histogram) :
    ∃ q root,
      (∀ fuel, alphabetSize histogram - 1 ≤ fuel →
        mergeLoop P fuel (pushLeaves P histogram totalPixels) =
          some (q, alphabetSize histogram - 1)) ∧
      (∀ fuel, fuel < alphabetSize histogram - 1 →
        mergeLoop P fuel (pushLeaves P histogram totalPixels) = none) ∧
      buildQueue P histogram totalPixels = some (q, alphabetSize histogram - 1) ∧
      P.size q = 1 ∧ P.elems q = {root} ∧
      huffmanRoot P histogram totalPixels = some root := by
  obtain ⟨q, root, hfuel, hbuild, hq, hroot, -, -, -⟩ :=
    huffmanRoot_spec P histogram totalPixels hA
  refine ⟨q, root, hfuel, ?_, hbuild, ?_, hq, hroot⟩
  · intro fuel hlt
    cases hr : mergeLoop P fuel (pushLeaves P histogram totalPixels) with
    | none => rfl
    | some res =>
      have h1 := mergeLoop_count_le P fuel _ res hr
      have h2 := mergeLoop_fuel_le P fuel (alphabetSize histogram - 1) _ res hr (by omega)
      rw [hfuel _ (le_refl _)] at h2
      simp only [Option.some.injEq] at h2
      rw [← h2] at h1
      simp only at h1
      omega
  · rw [P.size_eq, hq]; rfl

set_option maxRecDepth 100000 in
theorem mergeLoop_merges_witness :
    1 ≤ alphabetSize threeSymbols ∧
      ∃ q root,
        (∀ fuel, alphabetSize threeSymbols - 1 ≤ fuel →
          mergeLoop listQueue fuel (pushLeaves listQueue threeSymbols 7) =
            some (q, alphabetSize threeSymbols - 1)) ∧
        (∀ fuel, fuel < alphabetSize threeSymbols - 1 →
          mergeLoop listQueue fuel (pushLeaves listQueue threeSymbols 7) = none) ∧
        buildQueue listQueue threeSymbols 7 = some (q, alphabetSize threeSymbols - 1) ∧
        listQueue.size q = 1 ∧ listQueue.elems q = {root} ∧
        huffmanRoot listQueue threeSymbols 7 = some root :=
  ⟨by decide, mergeLoop_merges listQueue threeSymbols 7 (by decide)⟩

/-! ## The histogram of an image -/

theorem histogramTotal_incr_aux (histogram : Histogram) (pixel n : Nat) :
    ((List.range n).map (Histogram.incr histogram pixel)).sum =
      ((List.range n).map histogram).sum + (if pixel < n then 1 else 0) := by
  induction n with
  | zero => simp
  | succ n ih =>
    simp only [List.range_succ, List.map_append, List.sum_append, ih, List.map_cons,
      List.map_nil, List.sum_cons, List.sum_nil, Histogram.incr]
    by_cases h1 : pixel < n
    · have h2 : n ≠ pixel := by omega
      have h3 : pixel < n + 1 := by omega
      simp [h1, h2, h3]
      omega
    · by_cases h2 : n = pixel
      · have h3 : pixel < n + 1 := by omega
        simp [h1, h2, h3]
        omega
      · have h3 : ¬ pixel < n + 1 := by omega
        simp [h1, h2, h3]

theorem histogramTotal_incr (histogram : Histogram) (pixel : Nat) (h : pixel < 256) :
    histogramTotal (Histogram.incr histogram pixel) = histogramTotal histogram + 1 := by
  unfold histogramTotal
  rw [histogramTotal_incr_aux, if_pos h]

theorem histogramTotal_row (f : Nat → Nat) (js : List Nat) (histogram : Histogram) :
    histogramTotal (js.foldl (fun h j => Histogram.incr h (f j % 256)) histogram) =
      histogramTotal histogram + js.length := by
  induction js generalizing histogram with
  | nil => simp
  | cons j js ih =>
    rw [List.foldl_cons, ih, histogramTotal_incr _ _ (Nat.mod_lt _ (by decide)),
      List.length_cons]
    omega

theorem histogramTotal_rows (image : Mat) (is : List Nat) (histogram : Histogram) :
    histogramTotal (is.foldl
      (fun h i => (List.range image.cols).foldl
        (fun h j => Histogram.incr h (image.at_ i j % 256)) h) histogram) =
      histogramTotal histogram + is.length * image.cols := by
  induction is generalizing histogram with
  | nil => simp
  | cons i is ih =>
    rw [List.foldl_cons, ih, histogramTotal_row (fun j => image.at_ i j), List.length_range,
      List.length_cons]
    ring

/-- The counts of the histogram of an image add up to `rows * cols`. -/
theorem histogramTotal_computeHistogram (image : Mat) :
    histogramTotal (computeHistogram image) = totalPixels image := by
  unfold computeHistogram
  rw [histogramTotal_rows, List.length_range]
  have : histogramTotal (fun _ => 0) = 0 := by
    unfold histogramTotal
    exact List.sum_eq_zero (fun x hx => by
      obtain ⟨i, -, rfl⟩ := List.mem_map.mp hx
      rfl)
  rw [this, totalPixels]
  omega

theorem constant_row (f : Nat → Nat) (v : Nat) (js : List Nat) (hjs : ∀ j ∈ js, f j % 256 = v)
    (histogram : Histogram) :
    js.foldl (fun h j => Histogram.incr h (f j % 256)) histogram =
      fun k => if k = v then histogram k + js.length else histogram k := by
  induction js generalizing histogram with
  | nil => funext k; simp
  | cons j js ih =>
    rw [List.foldl_cons, ih (fun j' hj' => hjs j' (List.mem_cons_of_mem _ hj')),
      hjs j (List.mem_cons_self _ _)]
    funext k
    by_cases hk : k = v
    · simp [hk, Histogram.incr]; omega
    · simp [hk, Histogram.incr]

theorem constant_rows (image : Mat) (v : Nat) (is : List Nat)
    (his : ∀ i ∈ is, ∀ j < image.cols, image.at_ i j % 256 = v) (histogram : Histogram) :
    is.foldl
      (fun h i => (List.range image.cols).foldl
        (fun h j => Histogram.incr h (image.at_ i j % 256)) h) histogram =
      fun k => if k = v then histogram k + is.length * image.cols else histogram k := by
  induction is generalizing histogram with
  | nil => funext k; simp
  | cons i is ih =>
    rw [List.foldl_cons, ih (fun i' hi' => his i' (List.mem_cons_of_mem _ hi')),
      constant_row (fun j => image.at_ i j) v (List.range image.cols)
        (fun j hj => his i (List.mem_cons_self _ _) j (List.mem_range.mp hj))]
    funext k
    by_cases hk : k = v
    · simp only [hk, if_true, List.length_range, List.length_cons]; ring
    · simp [hk]

/-- The histogram of a grid whose samples all have the value `v`. -/
theorem computeHistogram_constant (image : Mat) (v : Nat) (hv : v < 256)
    (h : ∀ i < image.rows, ∀ j < image.cols, image.at_ i j = v) :
    computeHistogram image = fun k => if k = v then totalPixels image else 0 := by
  unfold computeHistogram
  rw [constant_rows image v (List.range image.rows)]
  · funext k
    simp [totalPixels]
  · intro i hi j hj
    rw [h i (List.mem_range.mp hi) j hj, Nat.mod_eq_of_lt hv]

theorem observed_single (v n : Nat) (hv : v < 256) (hn : 0 < n) :
    observed (fun k => if k = v then n else 0) = [v] := by
  apply List.perm_singleton.mp
  rw [List.perm_ext_iff_of_nodup (observed_nodup _) (List.nodup_singleton v)]
  intro a
  rw [mem_observed, List.mem_singleton]
  constructor
  · rintro ⟨-, h⟩
    by_contra hne
    simp [hne] at h
  · rintro rfl
    exact ⟨hv, by simpa using hn⟩

/-! ## The statistics as sums over the observed symbols -/

theorem avgCodeLength_fold (histogram : Histogram) (totalPixels : Nat) (table : CodeMap)
    (is : List Nat) (his : ∀ i ∈ is, i < 256) (a : ℚ) :
    is.foldl
      (fun acc i =>
        if histogram i > 0 then
          match CodeMap.find table (i % 256) with
          | some e => acc + probabilityOf histogram totalPixels i * (e.1 : ℚ)
          | none => acc
        else acc) a =
      a + ((is.filter (fun i => histogram i > 0)).map
        (fun i => match CodeMap.find table i with
          | some e => probabilityOf histogram totalPixels i * (e.1 : ℚ)
          | none => 0)).sum := by
  induction is generalizing a with
  | nil => simp
  | cons i is ih =>
    rw [List.foldl_cons, ih (fun j hj => his j (List.mem_cons_of_mem _ hj))]
    have hi : i % 256 = i := Nat.mod_eq_of_lt (his i (List.mem_cons_self _ _))
    by_cases h : histogram i > 0
    · rw [if_pos h, List.filter_cons_of_pos (by simpa using h), List.map_cons, List.sum_cons, hi]
      cases CodeMap.find table i with
      | none => simp
      | some e => simp only []; ring
    · rw [if_neg h, List.filter_cons_of_neg (by simpa using h)]

theorem avgCodeLength_eq_sum (histogram : Histogram) (totalPixels : Nat) (table : CodeMap) :
    avgCodeLength histogram totalPixels table =
      ((observed histogram).map
        (fun i => match CodeMap.find table i with
          | some e => probabilityOf histogram totalPixels i * (e.1 : ℚ)
          | none => 0)).sum := by
  unfold avgCodeLength observed
  exact (avgCodeLength_fold histogram totalPixels table (List.range 256)
    (fun i hi => List.mem_range.mp hi) 0).trans (zero_add _)

theorem entropy_fold (histogram : Histogram) (totalPixels : Nat) (is : List Nat) (a : ℝ) :
    is.foldl
      (fun acc i =>
        if histogram i > 0 then
          acc - (probabilityOf histogram totalPixels i : ℝ) *
            Real.logb 2 (probabilityOf histogram totalPixels i : ℝ)
        else acc) a =
      a - ((is.filter (fun i => histogram i > 0)).map
        (fun i => (probabilityOf histogram totalPixels i : ℝ) *
            Real.logb 2 (probabilityOf histogram totalPixels i : ℝ))).sum := by
  induction is generalizing a with
  | nil => simp
  | cons i is ih =>
    rw [List.foldl_cons, ih]
    by_cases h : histogram i > 0
    · rw [if_pos h, List.filter_cons_of_pos (by simpa using h), List.map_cons, List.sum_cons]
      ring
    · rw [if_neg h, List.filter_cons_of_neg (by simpa using h)]

theorem entropy_eq_sum (histogram : Histogram) (totalPixels : Nat) :
    entropy histogram totalPixels =
      - ((observed histogram).map
        (fun i => (probabilityOf histogram totalPixels i : ℝ) *
            Real.logb 2 (probabilityOf histogram totalPixels i : ℝ))).sum := by
  unfold entropy observed
  rw [entropy_fold, zero_sub]

/-- The expected code length computed from the generated table is the
weighted path length of the tree. -/
theorem avgCodeLength_eq_cost (histogram : Histogram) (totalPixels : Nat) (root : HuffmanNode)
    (hperm : (leaves root).Perm
      ((observed histogram).map (fun i => (i, probabilityOf histogram totalPixels i))))
    (hnd : ((leaves root).map Prod.fst).Nodup) :
    avgCodeLength histogram totalPixels ((leafInfo root []).map toEntry) = cost root := by
  rw [avgCodeLength_eq_sum, cost]
  have hterm : ∀ x ∈ leafInfo root [],
      x.2.1 * (x.2.2.length : ℚ) =
        (fun i => match CodeMap.find ((leafInfo root []).map toEntry) i with
          | some e => probabilityOf histogram totalPixels i * (e.1 : ℚ)
          | none => 0) x.1 := by
    intro x hx
    have hf : CodeMap.find ((leafInfo root []).map toEntry) x.1 =
        some (x.2.2.length, x.2.2) := (find_leafInfo root hnd _ _).mpr ⟨x, hx, rfl, rfl⟩
    have hl : (x.1, x.2.1) ∈ leaves root := by
      rw [← leafInfo_leaves root []]
      exact List.mem_map.mpr ⟨x, hx, rfl⟩
    obtain ⟨i, -, hi⟩ := List.mem_map.mp (hperm.mem_iff.mp hl)
    simp only [Prod.mk.injEq] at hi
    simp only [hf]
    rw [← hi.2, hi.1]
  rw [List.map_congr_left hterm]
  generalize (fun i => match CodeMap.find ((leafInfo root []).map toEntry) i with
          | some e => probabilityOf histogram totalPixels i * (e.1 : ℚ)
          | none => 0) = F
  have h1 : (leafInfo root []).map (fun x => x.1) = (leaves root).map Prod.fst := by
    rw [← leafInfo_leaves root [], List.map_map]; rfl
  have h2 : ((leaves root).map Prod.fst).Perm (observed histogram) := by
    have := hperm.map Prod.fst
    rw [List.map_map] at this
    have e : List.map (Prod.fst ∘ fun i => (i, probabilityOf histogram totalPixels i))
        (observed histogram) = observed histogram := by
      simp [Function.comp_def]
    rwa [e] at this
  have h3 : ∀ F : Nat → ℚ, (leafInfo root []).map (fun x => F x.1) =
      ((leafInfo root []).map (fun x => x.1)).map F := by
    intro F; rw [List.map_map]; rfl
  rw [h3, h1]
  exact ((h2.map _).sum_eq).symm

/-! ## Trees with one leaf -/

theorem leaves_length_pos {t : HuffmanNode} (ht : IsTree t) : 0 < (leaves t).length := by
  induction t with
  | null => exact absurd ht (by simp [IsTree])
  | node v p l r ihl _ =>
    rcases ht with ⟨hl, hr⟩ | ⟨hl, -⟩
    · subst hl hr
      simp [leaves, HuffmanNode.isNull]
    · rw [leaves_node_of_isTree v p hl, List.length_append]
      have := ihl hl
      omega

theorem isTree_single_leaf {t : HuffmanNode} (ht : IsTree t) (x : Nat × ℚ)
    (h : leaves t = [x]) : t = .node x.1 x.2 .null .null := by
  cases t with
  | null => exact absurd ht (by simp [IsTree])
  | node v p l r =>
    rcases ht with ⟨hl, hr⟩ | ⟨hl, hr⟩
    · subst hl hr
      simp only [leaves, HuffmanNode.isNull, Bool.and_self, if_true, List.append_nil,
        List.cons.injEq, and_true] at h
      subst h
      rfl
    · have h1 := leaves_length_pos hl
      have h2 := leaves_length_pos hr
      rw [leaves_node_of_isTree v p hl] at h
      have := congrArg List.length h
      simp only [List.length_append, List.length_singleton] at this
      omega

/-! ## A single observed symbol -/

/-- The root, the table and the statistics of a histogram whose only observed
symbol is `v`. -/
theorem single_symbol_spec (P : PriorityQueue) (v n : Nat) (hv : v < 256) (hn : 0 < n) :
    huffmanRoot P (fun k => if k = v then n else 0) n = some (.node v 1 .null .null) ∧
    huffmanCodes P (fun k => if k = v then n else 0) n = some [(v, (0, []))] ∧
    entropy (fun k => if k = v then n else 0) n = 0 ∧
    avgCodeLength (fun k => if k = v then n else 0) n [(v, (0, []))] = 0 := by
  have hobs := observed_single v n hv hn
  have hp : probabilityOf (fun k => if k = v then n else 0) n v = 1 := by
    have : (n : ℚ) ≠ 0 := by exact_mod_cast (Nat.pos_iff_ne_zero.mp hn)
    simp [probabilityOf, this]
  have hA : 0 < alphabetSize (fun k => if k = v then n else 0) := by
    simp [alphabetSize, hobs]
  obtain ⟨root, hroot, htree, hperm, hnd, htable⟩ :=
    huffmanCodes_spec P (fun k => if k = v then n else 0) n hA
  rw [hobs, List.map_singleton, hp, List.perm_singleton] at hperm
  have hr := isTree_single_leaf htree _ hperm
  simp only at hr
  subst hr
  refine ⟨hroot, ?_, ?_, ?_⟩
  · rw [htable]
    simp [leafInfo, toEntry, HuffmanNode.isNull]
  · rw [entropy_eq_sum, hobs]
    simp [hp]
  · rw [avgCodeLength_eq_sum, hobs]
    simp [CodeMap.find]

/-- The table, the statistics and the ratio of a non-empty grid whose samples
all have the value `v`. -/
theorem constant_grid_spec (P : PriorityQueue) (image : Mat) (v : Nat) (hv : v < 256)
    (hne : 0 < image.rows * image.cols)
    (hconst : ∀ i < image.rows, ∀ j < image.cols, image.at_ i j = v) :
    huffmanCodes P (computeHistogram image) (totalPixels image) = some [(v, (0, []))] ∧
      entropy (computeHistogram image) (totalPixels image) = 0 ∧
      avgCodeLength (computeHistogram image) (totalPixels image) [(v, (0, []))] = 0 ∧
      compressionRatio (computeHistogram image) (totalPixels image) [(v, (0, []))] =
        FloatValue.nan := by
  rw [computeHistogram_constant image v hv hconst]
  obtain ⟨-, h1, h2, h3⟩ := single_symbol_spec P v (totalPixels image) hv hne
  refine ⟨h1, h2, h3, ?_⟩
  simp [compressionRatio, floatDiv, h2, h3]

/-- C7: for every non-empty grid whose samples all have the same value v, the
code table has exactly one entry, for v, with length 0 and the empty bit
string; the entropy is 0 and the expected code length is 0. -/
theorem constant_grid_table (P : PriorityQueue) (image : Mat) (v : Nat) (hv : v < 256)
    (hne : 0 < image.rows * image.cols)
    (hconst : ∀ i < image.rows, ∀ j < image.cols, image.at_ i j = v) :
    ∃ table, huffmanCodes P (computeHistogram image) (totalPixels image) = some table ∧
      table = [(v, (0, []))] ∧
      entropy (computeHistogram image) (totalPixels image) = 0 ∧
      avgCodeLength (computeHistogram image) (totalPixels image) table = 0 := by
  obtain ⟨h1, h2, h3, -⟩ := constant_grid_spec P image v hv hne hconst
  exact ⟨_, h1, rfl, h2, h3⟩

theorem constant_grid_table_witness :
    (7 < 256 ∧ 0 < (constantImage 4 4 7).rows * (constantImage 4 4 7).cols ∧
      ∀ i < (constantImage 4 4 7).rows, ∀ j < (constantImage 4 4 7).cols,
        (constantImage 4 4 7).at_ i j = 7) ∧
    ∃ table, huffmanCodes listQueue (computeHistogram (constantImage 4 4 7))
        (totalPixels (constantImage 4 4 7)) = some table ∧
      table = [(7, (0, []))] ∧
      entropy (computeHistogram (constantImage 4 4 7)) (totalPixels (constantImage 4 4 7)) = 0 ∧
      avgCodeLength (computeHistogram (constantImage 4 4 7))
        (totalPixels (constantImage 4 4 7)) table = 0 :=
  ⟨⟨by decide, by decide, fun _ _ _ _ => rfl⟩,
    constant_grid_table listQueue (constantImage 4 4 7) 7 (by decide) (by decide)
      (fun _ _ _ _ => rfl)⟩

/-- C8 (the code at the failing input): for the 4 by 4 grid of sevens the
expected code length is 0, and the ratio that `main` computes and prints is
the not-a-number result of dividing 0 by 0. -/
theorem compressionRatio_sevens :
    ∃ table, huffmanCodes listQueue (computeHistogram (constantImage 4 4 7))
        (totalPixels (constantImage 4 4 7)) = some table ∧
      avgCodeLength (computeHistogram (constantImage 4 4 7))
        (totalPixels (constantImage 4 4 7)) table = 0 ∧
      compressionRatio (computeHistogram (constantImage 4 4 7))
        (totalPixels (constantImage 4 4 7)) table = FloatValue.nan := by
  obtain ⟨h1, -, h3, h4⟩ :=
    constant_grid_spec listQueue (constantImage 4 4 7) 7 (by decide) (by decide)
      (fun _ _ _ _ => rfl)
  exact ⟨_, h1, h3, h4⟩

/-! ## The guards of `main` -/

/-- The result of a run that stops at the guard `image.empty()`. -/
theorem main_of_empty (P : PriorityQueue) (iter : CodeMap → CodeMap) (cmd : CommandLine)
    (w : World) (hhelp : cmd.help = false) (hcheck : cmd.check = true)
    (hpath : cmd.imagePath.isEmpty = false) (hempty : (imread w cmd.imagePath).empty = true) :
    main P iter cmd w =
      some { exitCode := -1, cerr := some "Error: Could not open or find the image!",
             cout := [], file := none } := by
  simp [main, hhelp, hcheck, hpath, hempty]

theorem imread_unreadable (w : World) (path : String) (h : w.source path = none) :
    (imread w path).empty = true := by
  simp [imread, h, Mat.empty]

theorem imread_grid (w : World) (path : String) (image : Mat) (h : w.source path = some image) :
    imread w path = image := by
  simp [imread, h]

/-- C9 (the claim fails as stated): the run on a 0 by 0 grid and the run on a
source that cannot be read have the same result; the code has no outcome for
an empty source that differs from the one for an unreadable source. -/
theorem empty_source_not_distinct :
    main listQueue id plainRun (worldOf (constantImage 0 0 0)) =
      main listQueue id plainRun unreadableWorld := by
  rw [main_of_empty listQueue id plainRun (worldOf (constantImage 0 0 0)) rfl rfl (by decide)
      (by decide),
    main_of_empty listQueue id plainRun unreadableWorld rfl rfl (by decide) (by decide)]

/-- C9 (amended): for an empty grid (rows * cols = 0) the run stops at the
guard `image.empty()`, the guard that also catches a source that cannot be
read: its result is exit value -1 with the message of that guard, nothing on
`cout` (no statistics), and no code-table file; it is the result of the run on
an unreadable source with the same command line. -/
theorem main_empty_grid (P : PriorityQueue) (iter : CodeMap → CodeMap) (cmd : CommandLine)
    (w w' : World) (image : Mat) (hhelp : cmd.help = false) (hcheck : cmd.check = true)
    (hpath : cmd.imagePath.isEmpty = false) (hsrc : w.source cmd.imagePath = some image)
    (hempty : image.rows * image.cols = 0) (hsrc' : w'.source cmd.imagePath = none) :
    main P iter cmd w =
      some { exitCode := -1, cerr := some "Error: Could not open or find the image!",
             cout := [], file := none } ∧
    main P iter cmd w = main P iter cmd w' := by
  have h1 : (imread w cmd.imagePath).empty = true := by
    rw [imread_grid w _ image hsrc]
    simp [Mat.empty, hempty]
  rw [main_of_empty P iter cmd w hhelp hcheck hpath h1,
    main_of_empty P iter cmd w' hhelp hcheck hpath (imread_unreadable w' _ hsrc')]
  exact ⟨rfl, rfl⟩

theorem main_empty_grid_witness :
    (plainRun.help = false ∧ plainRun.check = true ∧ plainRun.imagePath.isEmpty = false ∧
      (worldOf (constantImage 0 0 0)).source plainRun.imagePath = some (constantImage 0 0 0) ∧
      (constantImage 0 0 0).rows * (constantImage 0 0 0).cols = 0 ∧
      unreadableWorld.source plainRun.imagePath = none) ∧
    (main listQueue id plainRun (worldOf (constantImage 0 0 0)) =
      some { exitCode := -1, cerr := some "Error: Could not open or find the image!",
             cout := [], file := none } ∧
    main listQueue id plainRun (worldOf (constantImage 0 0 0)) =
      main listQueue id plainRun unreadableWorld) :=
  ⟨⟨rfl, rfl, by decide, rfl, rfl, rfl⟩,
    main_empty_grid listQueue id plainRun (worldOf (constantImage 0 0 0)) unreadableWorld
      (constantImage 0 0 0) rfl rfl (by decide) rfl rfl rfl⟩

/-! ## The order of the exported rows -/

set_option maxRecDepth 100000 in
/-- C10 (the claim fails as stated): with a map that is visited in reverse
order of insertion, the histogram with 10 once and 20 twice gives the rows 20,
10; with a map that is visited in order of insertion, the histogram with 10
twice and 20 once gives the rows 20, 10. In both cases the symbols in
ascending order are 10, 20. -/
theorem exportedSymbols_not_ascending :
    (∃ table, huffmanCodes listQueue lightFirst 3 = some table ∧
      exportedSymbols List.reverse table = [20, 10] ∧ observed lightFirst = [10, 20]) ∧
    (∃ table, huffmanCodes listQueue heavyFirst 3 = some table ∧
      exportedSymbols id table = [20, 10] ∧ observed heavyFirst = [10, 20]) := by
  refine ⟨⟨[(10, (1, ['0'])), (20, (1, ['1']))], ?_, ?_, ?_⟩,
    ⟨[(20, (1, ['0'])), (10, (1, ['1']))], ?_, ?_, ?_⟩⟩
  · with_unfolding_all decide
  · decide
  · decide
  · with_unfolding_all decide
  · decide
  · decide

/-- C10 (amended): for every histogram with N > 0 and every iteration order of
the map (any rearrangement of its entries), the symbols of the exported rows
are a rearrangement of the symbols with a positive count: the number of rows
is the number of distinct observed symbols and no symbol occurs in two rows. -/
theorem exportedSymbols_perm (P : PriorityQueue) (iter : CodeMap → CodeMap)
    (hiter : ∀ m, (iter m).Perm m) (histogram : Histogram) (totalPixels : Nat)
    (hN : 0 < totalPixels) (hsum : histogramTotal histogram = totalPixels) :
    ∃ table, huffmanCodes P histogram totalPixels = some table ∧
      (exportedSymbols iter table).Perm (observed histogram) ∧
      (exportedSymbols iter table).length = alphabetSize histogram ∧
      (exportedSymbols iter table).Nodup := by
  obtain ⟨root, -, -, hperm, hnd, htable⟩ :=
    huffmanCodes_spec P histogram totalPixels (alphabetSize_pos histogram (by omega))
  have h1 : (exportedSymbols iter ((leafInfo root []).map toEntry)).Perm
      ((leaves root).map Prod.fst) := by
    unfold exportedSymbols exportedEntries
    rw [← leafInfo_keys root []]
    exact (hiter _).map Prod.fst
  have h2 : ((leaves root).map Prod.fst).Perm (observed histogram) := by
    have := hperm.map Prod.fst
    rw [List.map_map] at this
    have e : List.map (Prod.fst ∘ fun i => (i, probabilityOf histogram totalPixels i))
        (observed histogram) = observed histogram := by
      simp [Function.comp_def]
    rwa [e] at this
  have h3 := h1.trans h2
  exact ⟨_, htable, h3, h3.length_eq, h3.nodup_iff.mpr (observed_nodup histogram)⟩

set_option maxRecDepth 100000 in
theorem exportedSymbols_perm_witness :
    ((∀ m : CodeMap, (List.reverse m).Perm m) ∧ 0 < 3 ∧ histogramTotal lightFirst = 3) ∧
    ∃ table, huffmanCodes listQueue lightFirst 3 = some table ∧
      (exportedSymbols List.reverse table).Perm (observed lightFirst) ∧
      (exportedSymbols List.reverse table).length = alphabetSize lightFirst ∧
      (exportedSymbols List.reverse table).Nodup :=
  ⟨⟨fun m => List.reverse_perm m, by decide, by decide⟩,
    exportedSymbols_perm listQueue List.reverse (fun m => List.reverse_perm m) lightFirst 3
      (by decide) (by decide)⟩

/-! ## Probabilities -/

theorem histogram_le_total (histogram : Histogram) (i : Nat) (hi : i < 256) :
    histogram i ≤ histogramTotal histogram := by
  unfold histogramTotal
  exact List.single_le_sum (fun x _ => Nat.zero_le x) _
    (List.mem_map.mpr ⟨i, List.mem_range.mpr hi, rfl⟩)

theorem sum_filter_pos (histogram : Histogram) (is : List Nat) :
    ((is.filter (fun i => histogram i > 0)).map histogram).sum = (is.map histogram).sum := by
  induction is with
  | nil => rfl
  | cons i is ih =>
    by_cases h : histogram i > 0
    · rw [List.filter_cons_of_pos (by simpa using h), List.map_cons, List.sum_cons, ih,
        List.map_cons, List.sum_cons]
    · rw [List.filter_cons_of_neg (by simpa using h), ih, List.map_cons, List.sum_cons]
      have : histogram i = 0 := by omega
      omega

theorem observed_sum (histogram : Histogram) :
    ((observed histogram).map histogram).sum = histogramTotal histogram :=
  sum_filter_pos histogram (List.range 256)

theorem probabilityOf_pos (histogram : Histogram) (totalPixels : Nat) (hN : 0 < totalPixels)
    (i : Nat) (hi : 0 < histogram i) : 0 < probabilityOf histogram totalPixels i := by
  unfold probabilityOf
  have h1 : (0 : ℚ) < histogram i := by exact_mod_cast hi
  have h2 : (0 : ℚ) < totalPixels := by exact_mod_cast hN
  exact div_pos h1 h2

theorem probabilityOf_le_one (histogram : Histogram) (totalPixels : Nat) (hN : 0 < totalPixels)
    (hsum : histogramTotal histogram = totalPixels) (i : Nat) (hi : i < 256) :
    probabilityOf histogram totalPixels i ≤ 1 := by
  unfold probabilityOf
  have h2 : (0 : ℚ) < totalPixels := by exact_mod_cast hN
  rw [div_le_one h2]
  have := histogram_le_total histogram i hi
  rw [hsum] at this
  exact_mod_cast this

theorem probabilityOf_sum (histogram : Histogram) (totalPixels : Nat) (hN : 0 < totalPixels)
    (hsum : histogramTotal histogram = totalPixels) :
    ((observed histogram).map (probabilityOf histogram totalPixels)).sum = 1 := by
  have h2 : (totalPixels : ℚ) ≠ 0 := by exact_mod_cast (Nat.pos_iff_ne_zero.mp hN)
  have h : ∀ is : List Nat, (is.map (probabilityOf histogram totalPixels)).sum =
      (((is.map histogram).sum : Nat) : ℚ) / totalPixels := by
    intro is
    induction is with
    | nil => simp
    | cons i is ih =>
      rw [List.map_cons, List.sum_cons, ih, List.map_cons, List.sum_cons, probabilityOf]
      push_cast
      ring
  rw [h, observed_sum, hsum, div_self h2]

/-! ## Entropy and expected length -/

theorem entropy_nonneg (histogram : Histogram) (totalPixels : Nat) (hN : 0 < totalPixels)
    (hsum : histogramTotal histogram = totalPixels) : 0 ≤ entropy histogram totalPixels := by
  rw [entropy_eq_sum, neg_nonneg]
  have hnp : ∀ l : List ℝ, (∀ x ∈ l, x ≤ 0) → l.sum ≤ 0 := by
    intro l hl
    induction l with
    | nil => simp
    | cons a l ih =>
      rw [List.sum_cons]
      have h1 := hl a (List.mem_cons_self _ _)
      have h2 := ih (fun x hx => hl x (List.mem_cons_of_mem _ hx))
      linarith
  apply hnp
  intro x hx
  obtain ⟨i, hi, rfl⟩ := List.mem_map.mp hx
  obtain ⟨hi1, hi2⟩ := (mem_observed histogram i).mp hi
  have hp : (0 : ℝ) < probabilityOf histogram totalPixels i := by
    exact_mod_cast probabilityOf_pos histogram totalPixels hN i hi2
  have hp1 : (probabilityOf histogram totalPixels i : ℝ) ≤ 1 := by
    exact_mod_cast probabilityOf_le_one histogram totalPixels hN hsum i hi1
  have hlog : Real.logb 2 (probabilityOf histogram totalPixels i : ℝ) ≤ 0 :=
    Real.logb_nonpos (by norm_num) (le_of_lt hp) hp1
  exact mul_nonpos_of_nonneg_of_nonpos (le_of_lt hp) hlog

/-- One term of the comparison of entropy and expected length. -/
theorem gibbs_term (p : ℝ) (hp : 0 < p) (l : Nat) :
    (p - (1 / 2 : ℝ) ^ l) / Real.log 2 ≤ p * ((l : ℝ) + Real.logb 2 p) := by
  have hlog2 : 0 < Real.log 2 := Real.log_pos (by norm_num)
  have hpow : (0 : ℝ) < (1 / 2 : ℝ) ^ l := by positivity
  have hx : 0 < (1 / 2 : ℝ) ^ l / p := div_pos hpow hp
  have h := Real.log_le_sub_one_of_pos hx
  rw [Real.log_div (ne_of_gt hpow) (ne_of_gt hp), Real.log_pow,
    show (1 / 2 : ℝ) = 2⁻¹ by norm_num, Real.log_inv] at h
  rw [div_le_iff₀ hlog2, Real.logb, show (1 / 2 : ℝ) = 2⁻¹ by norm_num]
  have h2 : p * ((l : ℝ) * -Real.log 2 - Real.log p) ≤ p * ((2⁻¹ : ℝ) ^ l / p - 1) :=
    mul_le_mul_of_nonneg_left h (le_of_lt hp)
  have h3 : p * ((2⁻¹ : ℝ) ^ l / p - 1) = (2⁻¹ : ℝ) ^ l - p := by
    field_simp
    ring
  rw [h3] at h2
  have h4 : p * ((l : ℝ) + Real.log p / Real.log 2) * Real.log 2 =
      p * (l : ℝ) * Real.log 2 + p * Real.log p := by
    field_simp
    ring
  rw [h4]
  nlinarith [h2]

theorem gibbs_list (xs : List (ℝ × Nat)) (hpos : ∀ x ∈ xs, 0 < x.1) :
    ((xs.map (fun x => x.1)).sum - (xs.map (fun x => (1 / 2 : ℝ) ^ x.2)).sum) / Real.log 2 ≤
      (xs.map (fun x => x.1 * ((x.2 : ℝ) + Real.logb 2 x.1))).sum := by
  induction xs with
  | nil => simp
  | cons x xs ih =>
    have h1 := gibbs_term x.1 (hpos x (List.mem_cons_self _ _)) x.2
    have h2 := ih (fun y hy => hpos y (List.mem_cons_of_mem _ hy))
    simp only [List.map_cons, List.sum_cons]
    have e : (x.1 + (xs.map (fun x => x.1)).sum -
        ((1 / 2 : ℝ) ^ x.2 + (xs.map (fun x => (1 / 2 : ℝ) ^ x.2)).sum)) / Real.log 2 =
        (x.1 - (1 / 2 : ℝ) ^ x.2) / Real.log 2 +
        ((xs.map (fun x => x.1)).sum - (xs.map (fun x => (1 / 2 : ℝ) ^ x.2)).sum) /
          Real.log 2 := by
      ring
    rw [e]
    exact add_le_add h1 h2

/-- A sum over the leaves of the root of a function of the weight is the sum
over the observed symbols of that function of the probability. -/
theorem leaf_sum_eq {α : Type} [AddCommMonoid α] (g : ℚ → α) (histogram : Histogram)
    (totalPixels : Nat) (root : HuffmanNode)
    (hperm : (leaves root).Perm
      ((observed histogram).map (fun i => (i, probabilityOf histogram totalPixels i)))) :
    ((leafInfo root []).map (fun x => g x.2.1)).sum =
      ((observed histogram).map (fun i => g (probabilityOf histogram totalPixels i))).sum := by
  have h1 : (leafInfo root []).map (fun x => g x.2.1) =
      (leaves root).map (fun y => g y.2) := by
    rw [← leafInfo_leaves root [], List.map_map]
    rfl
  have h2 := (hperm.map (fun y => g y.2)).sum_eq
  rw [List.map_map] at h2
  rw [h1, h2]
  rfl

theorem leaf_weight_pos (histogram : Histogram) (totalPixels : Nat) (hN : 0 < totalPixels)
    (root : HuffmanNode)
    (hperm : (leaves root).Perm
      ((observed histogram).map (fun i => (i, probabilityOf histogram totalPixels i)))) :
    ∀ x ∈ leafInfo root [], 0 < x.2.1 := by
  intro x hx
  have hl : (x.1, x.2.1) ∈ leaves root := by
    rw [← leafInfo_leaves root []]
    exact List.mem_map.mpr ⟨x, hx, rfl⟩
  obtain ⟨i, hi, he⟩ := List.mem_map.mp (hperm.mem_iff.mp hl)
  simp only [Prod.mk.injEq] at he
  rw [← he.2]
  exact probabilityOf_pos histogram totalPixels hN i ((mem_observed histogram i).mp hi).2

theorem cast_list_sum {α : Type} (l : List α) (f : α → ℚ) :
    (((l.map f).sum : ℚ) : ℝ) = (l.map (fun x => ((f x : ℚ) : ℝ))).sum := by
  induction l with
  | nil => simp
  | cons a l ih =>
    rw [List.map_cons, List.sum_cons, List.map_cons, List.sum_cons, ← ih]
    push_cast
    rfl

/-- The entropy is at most the weighted path length of the root. -/
theorem entropy_le_cost (histogram : Histogram) (totalPixels : Nat) (hN : 0 < totalPixels)
    (hsum : histogramTotal histogram = totalPixels) (root : HuffmanNode) (htree : IsTree root)
    (hperm : (leaves root).Perm
      ((observed histogram).map (fun i => (i, probabilityOf histogram totalPixels i)))) :
    entropy histogram totalPixels ≤ (cost root : ℝ) := by
  have hg := gibbs_list ((leafInfo root []).map (fun x => ((x.2.1 : ℝ), x.2.2.length)))
    (by
      intro y hy
      obtain ⟨x, hx, rfl⟩ := List.mem_map.mp hy
      have := leaf_weight_pos histogram totalPixels hN root hperm x hx
      show (0 : ℝ) < ((x.2.1 : ℚ) : ℝ)
      exact_mod_cast this)
  simp only [List.map_map, Function.comp_def] at hg
  have hs1 : ((leafInfo root []).map (fun x => (x.2.1 : ℝ))).sum = 1 := by
    rw [leaf_sum_eq (fun q => (q : ℝ)) histogram totalPixels root hperm]
    have := probabilityOf_sum histogram totalPixels hN hsum
    have h2 : ((((observed histogram).map (probabilityOf histogram totalPixels)).sum : ℚ) : ℝ)
        = 1 := by
      exact_mod_cast this
    rw [← h2, cast_list_sum]
  have hs2 : ((leafInfo root []).map (fun x => (1 / 2 : ℝ) ^ x.2.2.length)).sum = 1 := by
    have := kraft_leafInfo root htree []
    simp only [List.length_nil, pow_zero] at this
    have h2 : ((((leafInfo root []).map (fun x => (1 / 2 : ℚ) ^ x.2.2.length)).sum : ℚ) : ℝ)
        = 1 := by
      exact_mod_cast this
    rw [cast_list_sum] at h2
    refine Eq.trans (congrArg List.sum (List.map_congr_left ?_)) h2
    intro x _
    push_cast
    rfl
  rw [hs1, hs2, sub_self, zero_div] at hg
  have hsplit : ((leafInfo root []).map
      (fun x => (x.2.1 : ℝ) * ((x.2.2.length : ℝ) + Real.logb 2 (x.2.1 : ℝ)))).sum =
      ((leafInfo root []).map (fun x => (x.2.1 : ℝ) * (x.2.2.length : ℝ))).sum +
      ((leafInfo root []).map (fun x => (x.2.1 : ℝ) * Real.logb 2 (x.2.1 : ℝ))).sum := by
    generalize leafInfo root [] = L
    induction L with
    | nil => simp
    | cons x L ih =>
      simp only [List.map_cons, List.sum_cons, ih]
      ring
  rw [hsplit, leaf_sum_eq (fun q => (q : ℝ) * Real.logb 2 (q : ℝ)) histogram totalPixels root
    hperm] at hg
  have hcost : ((cost root : ℚ) : ℝ) =
      ((leafInfo root []).map (fun x => (x.2.1 : ℝ) * (x.2.2.length : ℝ))).sum := by
    unfold cost
    rw [cast_list_sum]
    refine congrArg List.sum (List.map_congr_left ?_)
    intro x _
    push_cast
    rfl
  rw [entropy_eq_sum, hcost]
  linarith

/-- C5: for every histogram with N > 0 the entropy is at least 0, and when at
least two distinct symbols are present the entropy is at most the expected
code length of the generated table (exact real arithmetic, p = count / N). -/
theorem entropy_le_avgCodeLength (P : PriorityQueue) (histogram : Histogram)
    (totalPixels : Nat) (hN : 0 < totalPixels)
    (hsum : histogramTotal histogram = totalPixels) :
    0 ≤ entropy histogram totalPixels ∧
    (2 ≤ alphabetSize histogram →
      ∃ table, huffmanCodes P histogram totalPixels = some table ∧
        entropy histogram totalPixels ≤ (avgCodeLength histogram totalPixels table : ℝ)) := by
  refine ⟨entropy_nonneg histogram totalPixels hN hsum, fun hA => ?_⟩
  obtain ⟨root, -, htree, hperm, hnd, htable⟩ :=
    huffmanCodes_spec P histogram totalPixels (by omega)
  refine ⟨_, htable, ?_⟩
  rw [avgCodeLength_eq_cost histogram totalPixels root hperm hnd]
  exact entropy_le_cost histogram totalPixels hN hsum root htree hperm

set_option maxRecDepth 100000 in
theorem entropy_le_avgCodeLength_witness :
    (0 < 7 ∧ histogramTotal threeSymbols = 7 ∧ 2 ≤ alphabetSize threeSymbols) ∧
    0 ≤ entropy threeSymbols 7 ∧
    ∃ table, huffmanCodes listQueue threeSymbols 7 = some table ∧
      entropy threeSymbols 7 ≤ (avgCodeLength threeSymbols 7 table : ℝ) :=
  ⟨⟨by decide, by decide, by decide⟩,
    (entropy_le_avgCodeLength listQueue threeSymbols 7 (by decide) (by decide)).1,
    (entropy_le_avgCodeLength listQueue threeSymbols 7 (by decide) (by decide)).2 (by decide)⟩

/-! ## The Kraft inequality for prefix-free binary codes -/

theorem pairsKraft_cons (x : ℚ × ℕ) (xs : Multiset (ℚ × ℕ)) :
    pairsKraft (x ::ₘ xs) = (1 / 2 : ℚ) ^ x.2 + pairsKraft xs := by
  simp [pairsKraft]

theorem pairsCost_cons (x : ℚ × ℕ) (xs : Multiset (ℚ × ℕ)) :
    pairsCost (x ::ₘ xs) = x.1 * (x.2 : ℚ) + pairsCost xs := by
  simp [pairsCost]

theorem pairsKraft_nonneg (xs : Multiset (ℚ × ℕ)) : 0 ≤ pairsKraft xs := by
  induction xs using Multiset.induction_on with
  | empty => simp [pairsKraft]
  | cons x xs ih =>
    rw [pairsKraft_cons]
    have : (0 : ℚ) ≤ (1 / 2 : ℚ) ^ x.2 := by positivity
    linarith

theorem exists_max_snd (xs : Multiset (ℚ × ℕ)) (h : xs ≠ 0) :
    ∃ x ∈ xs, ∀ y ∈ xs, y.2 ≤ x.2 := by
  induction xs using Multiset.induction_on with
  | empty => exact absurd rfl h
  | cons a xs ih =>
    by_cases hxs : xs = 0
    · subst hxs
      exact ⟨a, by simp, by simp⟩
    · obtain ⟨x, hx, hmax⟩ := ih hxs
      by_cases hax : x.2 ≤ a.2
      · refine ⟨a, by simp, ?_⟩
        intro y hy
        rcases Multiset.mem_cons.mp hy with rfl | hy
        · exact le_refl _
        · exact le_trans (hmax y hy) hax
      · refine ⟨x, Multiset.mem_cons_of_mem hx, ?_⟩
        intro y hy
        rcases Multiset.mem_cons.mp hy with rfl | hy
        · omega
        · exact hmax y hy

/-- The lightest weight can be given the longest length without raising the
weighted length. -/
theorem pairs_swap (zs : Multiset (ℚ × ℕ)) (a : ℚ) (L : ℕ)
    (ha : a ∈ zs.map Prod.fst) (hamin : ∀ x ∈ zs, a ≤ x.1)
    (hL : L ∈ zs.map Prod.snd) (hLmax : ∀ x ∈ zs, x.2 ≤ L) :
    ∃ r : Multiset (ℚ × ℕ), zs.map Prod.fst = a ::ₘ r.map Prod.fst ∧
      zs.map Prod.snd = L ::ₘ r.map Prod.snd ∧
      a * (L : ℚ) + pairsCost r ≤ pairsCost zs := by
  obtain ⟨x, hx, hxL⟩ := Multiset.mem_map.mp hL
  have e1 : zs = x ::ₘ zs.erase x := (Multiset.cons_erase hx).symm
  by_cases hxa : x.1 = a
  · refine ⟨zs.erase x, ?_, ?_, ?_⟩
    · conv_lhs => rw [e1]
      rw [Multiset.map_cons, hxa]
    · conv_lhs => rw [e1]
      rw [Multiset.map_cons, hxL]
    · conv_rhs => rw [e1]
      rw [pairsCost_cons, hxa, hxL]
  · obtain ⟨y, hy, hya⟩ := Multiset.mem_map.mp ha
    have hyx : y ≠ x := fun e => hxa (by rw [← e, hya])
    have hy1 : y ∈ zs.erase x := (Multiset.mem_erase_of_ne hyx).mpr hy
    have e2 : zs.erase x = y ::ₘ (zs.erase x).erase y := (Multiset.cons_erase hy1).symm
    have e3 : zs = x ::ₘ y ::ₘ (zs.erase x).erase y := by
      rw [← e2]; exact e1
    refine ⟨(x.1, y.2) ::ₘ (zs.erase x).erase y, ?_, ?_, ?_⟩
    · conv_lhs => rw [e3]
      rw [Multiset.map_cons, Multiset.map_cons, Multiset.map_cons, hya, Multiset.cons_swap]
    · conv_lhs => rw [e3]
      rw [Multiset.map_cons, Multiset.map_cons, Multiset.map_cons, hxL]
    · conv_rhs => rw [e3]
      rw [pairsCost_cons, pairsCost_cons, pairsCost_cons, hxL, hya]
      have h1 : a ≤ x.1 := hamin x hx
      have h2 : (y.2 : ℚ) ≤ (L : ℚ) := by exact_mod_cast hLmax y hy
      simp only
      nlinarith [mul_nonneg (sub_nonneg.mpr h1) (sub_nonneg.mpr h2)]

theorem pairsKraft_scaled (L : ℕ) (r : Multiset (ℚ × ℕ)) (h : ∀ x ∈ r, x.2 ≤ L) :
    ∃ n : ℕ, pairsKraft r = (n : ℚ) / (2 : ℚ) ^ L := by
  induction r using Multiset.induction_on with
  | empty => exact ⟨0, by simp [pairsKraft]⟩
  | cons x r ih =>
    obtain ⟨n, hn⟩ := ih (fun y hy => h y (Multiset.mem_cons_of_mem hy))
    have hx : x.2 ≤ L := h x (Multiset.mem_cons_self _ _)
    refine ⟨2 ^ (L - x.2) + n, ?_⟩
    rw [pairsKraft_cons, hn]
    have e : (2 : ℚ) ^ L = (2 : ℚ) ^ (L - x.2) * (2 : ℚ) ^ x.2 := by
      rw [← pow_add]; congr 1; omega
    have h2 : (0 : ℚ) < (2 : ℚ) ^ x.2 := by positivity
    have h3 : (0 : ℚ) < (2 : ℚ) ^ (L - x.2) := by positivity
    push_cast
    rw [one_div, inv_pow, e]
    field_simp

theorem pairsKraft_eq (xs : Multiset (ℚ × ℕ)) :
    pairsKraft xs = ((xs.map Prod.snd).map (fun l => (1 / 2 : ℚ) ^ l)).sum := by
  rw [pairsKraft, Multiset.map_map]
  rfl

/-- A length assignment with Kraft sum at most 1 for weights whose two
lightest are `a` and `b` yields one for the weights with `a` and `b` replaced
by `a + b`, of weighted length smaller by at least `a + b`. -/
theorem pairs_merge (xs : Multiset (ℚ × ℕ)) (a b : ℚ) (W : Multiset ℚ)
    (hw : xs.map Prod.fst = a ::ₘ b ::ₘ W) (ha0 : 0 ≤ a)
    (hamin : ∀ y ∈ a ::ₘ b ::ₘ W, a ≤ y) (hbmin : ∀ y ∈ b ::ₘ W, b ≤ y)
    (hk : pairsKraft xs ≤ 1) :
    ∃ ys : Multiset (ℚ × ℕ), ys.map Prod.fst = (a + b) ::ₘ W ∧ pairsKraft ys ≤ 1 ∧
      pairsCost ys + a + b ≤ pairsCost xs := by
  have hxs : xs ≠ 0 := by
    intro e; rw [e] at hw; simp at hw
  obtain ⟨x1, hx1, hmax1⟩ := exists_max_snd xs hxs
  obtain ⟨r1, hf1, hs1, hc1⟩ := pairs_swap xs a x1.2
    (by rw [hw]; simp)
    (fun x hx => hamin x.1 (by rw [← hw]; exact Multiset.mem_map_of_mem _ hx))
    (Multiset.mem_map_of_mem _ hx1) hmax1
  have hr1f : r1.map Prod.fst = b ::ₘ W := by
    rw [hw] at hf1
    exact ((Multiset.cons_inj_right a).mp hf1).symm
  have hr1 : r1 ≠ 0 := by
    intro e; rw [e] at hr1f; simp at hr1f
  obtain ⟨x2, hx2, hmax2⟩ := exists_max_snd r1 hr1
  obtain ⟨r2, hf2, hs2, hc2⟩ := pairs_swap r1 b x2.2
    (by rw [hr1f]; simp)
    (fun x hx => hbmin x.1 (by rw [← hr1f]; exact Multiset.mem_map_of_mem _ hx))
    (Multiset.mem_map_of_mem _ hx2) hmax2
  have hr2f : r2.map Prod.fst = W := by
    rw [hr1f] at hf2
    exact ((Multiset.cons_inj_right b).mp hf2).symm
  have hle2 : ∀ x ∈ r2, x.2 ≤ x2.2 := by
    intro x hx
    have : x.2 ∈ r1.map Prod.snd := by
      rw [hs2]; exact Multiset.mem_cons_of_mem (Multiset.mem_map_of_mem _ hx)
    obtain ⟨y, hy, hyx⟩ := Multiset.mem_map.mp this
    rw [← hyx]; exact hmax2 y hy
  have hL : x2.2 ≤ x1.2 := by
    have : x2.2 ∈ xs.map Prod.snd := by
      rw [hs1]; exact Multiset.mem_cons_of_mem (Multiset.mem_map_of_mem _ hx2)
    obtain ⟨y, hy, hyx⟩ := Multiset.mem_map.mp this
    rw [← hyx]; exact hmax1 y hy
  have hkx : pairsKraft xs = (1 / 2 : ℚ) ^ x1.2 + ((1 / 2 : ℚ) ^ x2.2 + pairsKraft r2) := by
    rw [pairsKraft_eq xs, hs1, hs2, Multiset.map_cons, Multiset.map_cons, Multiset.sum_cons,
      Multiset.sum_cons, ← pairsKraft_eq r2]
  obtain ⟨n, hn⟩ := pairsKraft_scaled x2.2 r2 hle2
  have hpos1 : (0 : ℚ) < (1 / 2 : ℚ) ^ x1.2 := by positivity
  have h2pos : (0 : ℚ) < (2 : ℚ) ^ x2.2 := by positivity
  have hhalf : (1 / 2 : ℚ) ^ x2.2 = 1 / (2 : ℚ) ^ x2.2 := by
    rw [one_div, inv_pow, one_div]
  have hlt : ((n + 1 : ℕ) : ℚ) < (2 : ℚ) ^ x2.2 := by
    have h1 : (n : ℚ) / (2 : ℚ) ^ x2.2 + 1 / (2 : ℚ) ^ x2.2 < 1 := by
      rw [← hn, ← hhalf]; linarith
    rw [← add_div, div_lt_one h2pos] at h1
    push_cast
    exact h1
  have hlt' : n + 1 < 2 ^ x2.2 := by exact_mod_cast hlt
  have hL2 : 1 ≤ x2.2 := by
    by_contra hcon
    have : x2.2 = 0 := by omega
    rw [this] at hlt'
    simp at hlt'
  have hle' : ((n + 2 : ℕ) : ℚ) ≤ (2 : ℚ) ^ x2.2 := by
    have : n + 2 ≤ 2 ^ x2.2 := by omega
    exact_mod_cast this
  refine ⟨(a + b, x2.2 - 1) ::ₘ r2, ?_, ?_, ?_⟩
  · rw [Multiset.map_cons, hr2f]
  · rw [pairsKraft_cons, hn]
    have e : (1 / 2 : ℚ) ^ (x2.2 - 1) = 2 / (2 : ℚ) ^ x2.2 := by
      have : x2.2 = (x2.2 - 1) + 1 := by omega
      conv_rhs => rw [this, pow_succ]
      rw [one_div, inv_pow]
      field_simp
    simp only
    rw [e, ← add_div, div_le_one h2pos]
    push_cast at hle'
    linarith
  · rw [pairsCost_cons]
    have hcast : (((x2.2 - 1 : ℕ)) : ℚ) = (x2.2 : ℚ) - 1 := by
      rw [Nat.cast_sub hL2]; simp
    simp only
    rw [hcast]
    have hLq : (x2.2 : ℚ) ≤ (x1.2 : ℚ) := by exact_mod_cast hL
    nlinarith [mul_nonneg ha0 (sub_nonneg.mpr hLq)]

/-! ## The weighted path length of the built tree -/

theorem leafInfo_weight_sum (t : HuffmanNode) (code : List Char) :
    ((leafInfo t code).map (fun x => x.2.1)).sum = leafWeight t := by
  rw [leafWeight, ← leafInfo_leaves t code, List.map_map]
  rfl

theorem leafInfo_cost_sum (t : HuffmanNode) (code : List Char) :
    ((leafInfo t code).map (fun x => x.2.1 * (x.2.2.length : ℚ))).sum =
      cost t + (code.length : ℚ) * leafWeight t := by
  rw [leafInfo_code t code, cost, ← leafInfo_weight_sum t [], List.map_map]
  generalize leafInfo t [] = L
  induction L with
  | nil => simp
  | cons x L ih =>
    simp only [List.map_cons, List.sum_cons, Function.comp_apply, List.length_append] at ih ⊢
    rw [ih]
    push_cast
    ring

theorem cost_node (v : Nat) (p : ℚ) {l r : HuffmanNode} (hl : IsTree l) :
    cost (.node v p l r) = cost l + cost r + leafWeight l + leafWeight r := by
  have e : leafInfo (.node v p l r) [] = leafInfo l ['0'] ++ leafInfo r ['1'] := by
    simp [leafInfo, hl.isNull]
  rw [cost, e, List.map_append, List.sum_append, leafInfo_cost_sum, leafInfo_cost_sum]
  simp only [List.length_singleton, Nat.cast_one, one_mul]
  ring

theorem leafWeight_node (v : Nat) (p : ℚ) {l r : HuffmanNode} (hl : IsTree l) :
    leafWeight (.node v p l r) = leafWeight l + leafWeight r := by
  rw [leafWeight, leaves_node_of_isTree v p hl, List.map_append, List.sum_append]
  rfl

theorem cost_newNode (i : Nat) (p : ℚ) : cost (newNode i p) = 0 := by
  simp [cost, newNode, leafInfo, HuffmanNode.isNull]

theorem sound_newNode (i : Nat) (p : ℚ) (hp : 0 ≤ p) : Sound (newNode i p) := by
  refine ⟨isTree_newNode i p, ?_, hp⟩
  rw [leafWeight, leaves_newNode]
  simp [newNode, HuffmanNode.probability]

theorem HStep.sound {F F' : Multiset HuffmanNode} (h : HStep F F')
    (hF : ∀ t ∈ F, Sound t) : ∀ t ∈ F', Sound t := by
  obtain ⟨l, r, rest, e, -, -, e'⟩ := h
  subst e e'
  intro t ht
  rcases Multiset.mem_cons.mp ht with rfl | ht
  · obtain ⟨hl1, hl2, hl3⟩ := hF l (by simp)
    obtain ⟨hr1, hr2, hr3⟩ := hF r (by simp)
    refine ⟨Or.inr ⟨hl1, hr1⟩, ?_, ?_⟩
    · rw [leafWeight_node 0 _ hl1, ← hl2, ← hr2]
      rfl
    · exact add_nonneg hl3 hr3
  · exact hF t (by simp [ht])

theorem forestCost_cons (t : HuffmanNode) (F : Multiset HuffmanNode) :
    forestCost (t ::ₘ F) = cost t + forestCost F := by
  simp [forestCost]

/-- The weighted path length of the tree that the merges build from a forest
is at most the cost of the forest plus the weighted length of any length
assignment with Kraft sum at most 1 for the weights of the forest. -/
theorem hrun_cost_le {F : Multiset HuffmanNode} {root : HuffmanNode}
    (h : Relation.ReflTransGen HStep F {root}) :
    (∀ t ∈ F, Sound t) → ∀ xs : Multiset (ℚ × ℕ),
      xs.map Prod.fst = F.map HuffmanNode.probability → pairsKraft xs ≤ 1 →
      cost root ≤ forestCost F + pairsCost xs := by
  induction h using Relation.ReflTransGen.head_induction_on with
  | refl =>
    intro hF xs hw _
    have hcard : Multiset.card xs = 1 := by
      have := congrArg Multiset.card hw
      simpa using this
    obtain ⟨x, rfl⟩ := Multiset.card_eq_one.mp hcard
    have hx : x.1 = root.probability := by
      simpa using hw
    have h0 : 0 ≤ root.probability := (hF root (by simp)).2.2
    have hc : pairsCost {x} = x.1 * (x.2 : ℚ) := by
      simp [pairsCost]
    have hf : forestCost {root} = cost root := by
      simp [forestCost]
    rw [hc, hf, hx]
    have : (0 : ℚ) ≤ (x.2 : ℚ) := Nat.cast_nonneg _
    nlinarith [mul_nonneg h0 this]
  | head hstep _ ih =>
    intro hF xs hw hk
    have hsound := hstep.sound hF
    obtain ⟨l, r, rest, e, hlmin, hrmin, e'⟩ := hstep
    subst e e'
    obtain ⟨hl1, hl2, hl3⟩ := hF l (by simp)
    obtain ⟨hr1, hr2, _⟩ := hF r (by simp)
    simp only [Multiset.map_cons] at hw
    obtain ⟨ys, hyw, hyk, hyc⟩ := pairs_merge xs l.probability r.probability
      (rest.map HuffmanNode.probability) hw hl3
      (by
        intro y hy
        have : y ∈ (l ::ₘ r ::ₘ rest).map HuffmanNode.probability := by
          simpa using hy
        obtain ⟨t, ht, rfl⟩ := Multiset.mem_map.mp this
        exact hlmin t ht)
      (by
        intro y hy
        have : y ∈ (r ::ₘ rest).map HuffmanNode.probability := by
          simpa using hy
        obtain ⟨t, ht, rfl⟩ := Multiset.mem_map.mp this
        exact hrmin t ht)
      hk
    have := ih hsound ys (by rw [hyw, Multiset.map_cons]; rfl) hyk
    rw [forestCost_cons, cost_node 0 _ hl1, ← hl2, ← hr2] at this
    rw [forestCost_cons, forestCost_cons]
    linarith

/-! ## Optimality -/

theorem forestCost_leaves (f : Nat → ℚ) (is : List Nat) :
    forestCost ((is.map (fun i => newNode i (f i)) : List HuffmanNode) : Multiset HuffmanNode)
      = 0 := by
  induction is with
  | nil => simp [forestCost]
  | cons i is ih =>
    rw [List.map_cons, ← Multiset.cons_coe, forestCost_cons, ih, cost_newNode, add_zero]

/-- The expected code length of the generated table is at most the weighted
length of every length assignment with Kraft sum at most 1. -/
theorem avgCodeLength_le_pairsCost (P : PriorityQueue) (histogram : Histogram)
    (totalPixels : Nat) (hN : 0 < totalPixels)
    (hsum : histogramTotal histogram = totalPixels) (len : Nat → Nat)
    (hk : pairsKraft (((observed histogram).map
      (fun i => (probabilityOf histogram totalPixels i, len i)) : List (ℚ × ℕ)) :
        Multiset (ℚ × ℕ)) ≤ 1) :
    ∃ table, huffmanCodes P histogram totalPixels = some table ∧
      avgCodeLength histogram totalPixels table ≤
        pairsCost (((observed histogram).map
          (fun i => (probabilityOf histogram totalPixels i, len i)) : List (ℚ × ℕ)) :
            Multiset (ℚ × ℕ)) := by
  have hA := alphabetSize_pos histogram (by omega)
  obtain ⟨q, root, -, -, -, hroot, -, -, hrun⟩ := huffmanRoot_spec P histogram totalPixels hA
  obtain ⟨root', hroot', -, hperm, hnd, htable⟩ := huffmanCodes_spec P histogram totalPixels hA
  rw [hroot] at hroot'
  cases hroot'
  refine ⟨_, htable, ?_⟩
  rw [avgCodeLength_eq_cost histogram totalPixels root hperm hnd]
  rw [pushLeaves_elems] at hrun
  have hsound : ∀ t ∈ (((observed histogram).map
      (fun i => newNode i (probabilityOf histogram totalPixels i)) : List HuffmanNode) :
        Multiset HuffmanNode), Sound t := by
    intro t ht
    obtain ⟨i, hi, rfl⟩ := List.mem_map.mp (Multiset.mem_coe.mp ht)
    exact sound_newNode i _
      (le_of_lt (probabilityOf_pos histogram totalPixels hN i
        ((mem_observed histogram i).mp hi).2))
  have hw : ((((observed histogram).map
      (fun i => (probabilityOf histogram totalPixels i, len i)) : List (ℚ × ℕ)) :
        Multiset (ℚ × ℕ))).map Prod.fst =
      ((((observed histogram).map
      (fun i => newNode i (probabilityOf histogram totalPixels i)) : List HuffmanNode) :
        Multiset HuffmanNode)).map HuffmanNode.probability := by
    rw [Multiset.map_coe, Multiset.map_coe, List.map_map, List.map_map]
    rfl
  have := hrun_cost_le hrun hsound _ hw hk
  rw [forestCost_leaves, zero_add] at this
  exact this

theorem row_count (f : Nat → Nat) (js : List Nat) (histogram : Histogram) :
    js.foldl (fun h j => Histogram.incr h (f j % 256)) histogram =
      fun k => histogram k + (js.filter (fun j => f j % 256 = k)).length := by
  induction js generalizing histogram with
  | nil => funext k; simp
  | cons j js ih =>
    rw [List.foldl_cons, ih]
    funext k
    by_cases hk : f j % 256 = k
    · rw [List.filter_cons_of_pos (by simpa using hk)]
      simp only [Histogram.incr, List.length_cons]
      rw [if_pos hk.symm]
      omega
    · rw [List.filter_cons_of_neg (by simpa using hk)]
      simp only [Histogram.incr]
      rw [if_neg (fun e => hk e.symm)]

theorem rows_count (image : Mat) (is : List Nat) (histogram : Histogram) :
    is.foldl
      (fun h i => (List.range image.cols).foldl
        (fun h j => Histogram.incr h (image.at_ i j % 256)) h) histogram =
      fun k => histogram k + (is.map
        (fun i => ((List.range image.cols).filter
          (fun j => image.at_ i j % 256 = k)).length)).sum := by
  induction is generalizing histogram with
  | nil => funext k; simp
  | cons i is ih =>
    rw [List.foldl_cons, ih, row_count (fun j => image.at_ i j)]
    funext k
    simp only [List.map_cons, List.sum_cons]
    omega

theorem computeHistogram_eq_cellCount (image : Mat) (s : Nat) :
    computeHistogram image s = cellCount image s := by
  unfold computeHistogram cellCount
  rw [rows_count]
  simp

/-- C14: for every grid, `histogram[s]` is the number of cells whose value is
`s`, the 256 counts add up to N = rows * cols, and for N > 0 the probabilities
count / N of the symbols with a positive count add up to exactly 1. -/
theorem histogram_counts (image : Mat) :
    (∀ s, computeHistogram image s = cellCount image s) ∧
    histogramTotal (computeHistogram image) = image.rows * image.cols ∧
    (0 < image.rows * image.cols →
      ((observed (computeHistogram image)).map
        (probabilityOf (computeHistogram image) (totalPixels image))).sum = 1) := by
  refine ⟨computeHistogram_eq_cellCount image, histogramTotal_computeHistogram image, ?_⟩
  intro hN
  exact probabilityOf_sum _ _ hN (histogramTotal_computeHistogram image)

theorem histogram_counts_witness :
    0 < (constantImage 4 4 7).rows * (constantImage 4 4 7).cols ∧
    ((observed (computeHistogram (constantImage 4 4 7))).map
      (probabilityOf (computeHistogram (constantImage 4 4 7))
        (totalPixels (constantImage 4 4 7)))).sum = 1 :=
  ⟨by decide, (histogram_counts (constantImage 4 4 7)).2.2 (by decide)⟩

/-! ## The queue is never empty where `top` is called -/

theorem alphabetSize_pos_of_image (image : Mat) (h : 0 < image.rows * image.cols) :
    0 < alphabetSize (computeHistogram image) := by
  apply alphabetSize_pos
  rw [histogramTotal_computeHistogram]
  exact h

theorem main_isSome (P : PriorityQueue) (iter : CodeMap → CodeMap) (cmd : CommandLine)
    (w : World) : ∃ res, main P iter cmd w = some res := by
  unfold main
  by_cases h1 : (cmd.help || !cmd.check) = true
  · rw [if_pos h1]; exact ⟨_, rfl⟩
  · rw [if_neg h1]
    by_cases h2 : cmd.imagePath.isEmpty = true
    · rw [if_pos h2]; exact ⟨_, rfl⟩
    · rw [if_neg h2]
      simp only
      by_cases h3 : (imread w cmd.imagePath).empty = true
      · rw [if_pos h3]; exact ⟨_, rfl⟩
      · rw [if_neg h3]
        have hpos : 0 < (imread w cmd.imagePath).rows * (imread w cmd.imagePath).cols := by
          simp only [Mat.empty, beq_iff_eq] at h3
          omega
        obtain ⟨root, -, -, -, -, htable⟩ :=
          huffmanCodes_spec P (computeHistogram (imread w cmd.imagePath))
            (totalPixels (imread w cmd.imagePath)) (alphabetSize_pos_of_image _ hpos)
        rw [htable]
        simp only
        by_cases h4 : (!w.canOpen) = true
        · rw [if_pos h4]; exact ⟨_, rfl⟩
        · rw [if_neg h4]; exact ⟨_, rfl⟩

/-- C20: when the grid passes the `image.empty()` guard (rows * cols > 0), at
least one count of the histogram is positive; the merge loop ends with a queue
of at least one node and the `top` that reads the root returns a node; and in
every queue state with more than one node, which is where the loop body runs,
both `top` calls of the body are made on a non-empty queue and return a node. -/
theorem top_never_empty (P : PriorityQueue) (image : Mat)
    (h : 0 < image.rows * image.cols) :
    0 < alphabetSize (computeHistogram image) ∧
    (∃ q n root, buildQueue P (computeHistogram image) (totalPixels image) = some (q, n) ∧
      1 ≤ P.size q ∧ P.top q = some root ∧
      huffmanRoot P (computeHistogram image) (totalPixels image) = some root) ∧
    (∀ pq : P.Q, 1 < P.size pq →
      ∃ l r pq', 1 ≤ P.size pq ∧ P.top pq = some l ∧
        1 ≤ P.size (P.pop pq) ∧ P.top (P.pop pq) = some r ∧
        mergeStep P pq = some pq') := by
  have hA := alphabetSize_pos_of_image image h
  refine ⟨hA, ?_, ?_⟩
  · obtain ⟨q, root, -, hbuild, hq, hroot, -, -, -⟩ :=
      huffmanRoot_spec P (computeHistogram image) (totalPixels image) hA
    refine ⟨q, _, root, hbuild, ?_, ?_, hroot⟩
    · rw [P.size_eq, hq]; simp
    · have := hroot
      simp only [huffmanRoot, hbuild, Option.some_bind] at this
      exact this
  · intro pq hpq
    rw [P.size_eq] at hpq
    obtain ⟨l, r, hl, hr, hstep, he, -⟩ := mergeStep_spec P pq hpq
    refine ⟨l, r, _, ?_, hl, ?_, hr, hstep⟩
    · rw [P.size_eq]; omega
    · rw [P.size_eq, P.elems_pop pq l hl, he]
      simp

theorem top_never_empty_witness :
    0 < (constantImage 4 4 7).rows * (constantImage 4 4 7).cols ∧
    0 < alphabetSize (computeHistogram (constantImage 4 4 7)) :=
  ⟨by decide, (top_never_empty listQueue (constantImage 4 4 7) (by decide)).1⟩

/-! ## What `generateHuffmanCodes` records -/

theorem leafInfo_leafPaths (t : HuffmanNode) (code : List Char) :
    (leafInfo t code).map toEntry =
      (leafPaths t).map (fun x => (x.1, ((code ++ x.2).length, code ++ x.2))) := by
  induction t generalizing code with
  | null => rfl
  | node v p l r ihl ihr =>
    simp only [leafInfo, leafPaths, List.map_append, ihl, ihr, List.map_map]
    by_cases h : (l.isNull && r.isNull) = true
    · simp [h, toEntry, Function.comp_def]
    · simp [h, Function.comp_def]

theorem leafInfo_pathEntry (t : HuffmanNode) :
    (leafInfo t []).map toEntry = (leafPaths t).map pathEntry := by
  rw [leafInfo_leafPaths]
  rfl

theorem CodeMap.find_assign (m : CodeMap) (k : Nat) (v : CodeEntry) (s : Nat) :
    CodeMap.find (CodeMap.assign m k v) s = if k = s then some v else CodeMap.find m s := by
  induction m with
  | nil => simp [CodeMap.assign, CodeMap.find]
  | cons a m ih =>
    obtain ⟨k', v'⟩ := a
    by_cases h : k' = k
    · subst h
      by_cases hs : k' = s
      · simp [CodeMap.assign, CodeMap.find, hs]
      · simp [CodeMap.assign, CodeMap.find, hs]
    · by_cases hs : k' = s
      · have hks : ¬ k = s := fun e => h (by rw [hs, e])
        rw [CodeMap.assign, if_neg h, CodeMap.find, if_pos hs, if_neg hks, CodeMap.find,
          if_pos hs]
      · simp [CodeMap.assign, CodeMap.find, h, hs, ih]

theorem find_assignAll (es : List (Nat × CodeEntry)) (m : CodeMap) (s : Nat) (e : CodeEntry)
    (h : CodeMap.find (assignAll m es) s = some e) :
    (s, e) ∈ es ∨ CodeMap.find m s = some e := by
  induction es generalizing m with
  | nil => exact Or.inr h
  | cons a es ih =>
    simp only [assignAll, List.foldl_cons] at h
    rcases ih (CodeMap.assign m a.1 a.2) h with h1 | h1
    · exact Or.inl (List.mem_cons_of_mem _ h1)
    · rw [CodeMap.find_assign] at h1
      by_cases hk : a.1 = s
      · rw [if_pos hk] at h1
        left
        simp only [Option.some.injEq] at h1
        rw [← h1, ← hk]
        exact List.mem_cons_self _ _
      · rw [if_neg hk] at h1
        exact Or.inr h1

theorem leafPaths_keys (t : HuffmanNode) :
    (leafPaths t).map Prod.fst = (leaves t).map Prod.fst := by
  rw [← leafInfo_keys t [], leafInfo_pathEntry, List.map_map]
  rfl

/-- C17: `generateHuffmanCodes(root, "")` performs, leaf by leaf from left to
right, the assignment of (length of the path, path) to the symbol of the leaf,
where the path has '0' for a step to the left and '1' for a step to the right.
Every entry of the resulting table is such a pair of a leaf, so its length is
the number of bits of its string; and when the symbols of the leaves are
pairwise distinct the table holds, for every leaf, exactly the pair of that
leaf. -/
theorem generateHuffmanCodes_records (t : HuffmanNode) :
    generateHuffmanCodes t [] [] = assignAll [] ((leafPaths t).map pathEntry) ∧
    (∀ s e, CodeMap.find (generateHuffmanCodes t [] []) s = some e →
      e.1 = e.2.length ∧ (s, e.2) ∈ leafPaths t) ∧
    (((leafPaths t).map Prod.fst).Nodup →
      ∀ x ∈ leafPaths t,
        CodeMap.find (generateHuffmanCodes t [] []) x.1 = some (x.2.length, x.2)) := by
  have h1 : generateHuffmanCodes t [] [] = assignAll [] ((leafPaths t).map pathEntry) := by
    rw [generateHuffmanCodes_eq_assignAll, leafInfo_pathEntry]
  refine ⟨h1, ?_, ?_⟩
  · intro s e he
    rw [h1] at he
    rcases find_assignAll _ _ s e he with h | h
    · obtain ⟨x, hx, hxe⟩ := List.mem_map.mp h
      simp only [pathEntry, Prod.mk.injEq] at hxe
      obtain ⟨e1, e2⟩ := hxe
      subst e1
      rw [← e2]
      exact ⟨rfl, hx⟩
    · simp [CodeMap.find] at h
  · intro hnd x hx
    have hnd' : ((leaves t).map Prod.fst).Nodup := by
      rw [← leafPaths_keys]; exact hnd
    rw [generateHuffmanCodes_of_nodup t hnd', leafInfo_pathEntry,
      CodeMap.find_eq_some_iff _ (by rw [List.map_map]; exact hnd)]
    exact List.mem_map.mpr ⟨x, hx, rfl⟩

theorem generateHuffmanCodes_records_witness :
    ((leafPaths sampleTree).map Prod.fst).Nodup ∧
    ∀ x ∈ leafPaths sampleTree,
      CodeMap.find (generateHuffmanCodes sampleTree [] []) x.1 = some (x.2.length, x.2) :=
  ⟨by decide, (generateHuffmanCodes_records sampleTree).2.2 (by decide)⟩

/-! ## The order of the weights in the tree -/

theorem ordered_newNode (i : Nat) (p : ℚ) : Ordered (newNode i p) := by
  simp [newNode, Ordered]

theorem HStep.ordered {F F' : Multiset HuffmanNode} (h : HStep F F')
    (hF : ∀ t ∈ F, Ordered t) : ∀ t ∈ F', Ordered t := by
  obtain ⟨l, r, rest, e, hl, -, e'⟩ := h
  subst e e'
  intro t ht
  rcases Multiset.mem_cons.mp ht with rfl | ht
  · exact Or.inr ⟨hl r (by simp), rfl, hF l (by simp), hF r (by simp)⟩
  · exact hF t (by simp [ht])

theorem hrun_ordered {F F' : Multiset HuffmanNode} (h : Relation.ReflTransGen HStep F F')
    (hF : ∀ t ∈ F, Ordered t) : ∀ t ∈ F', Ordered t := by
  induction h with
  | refl => exact hF
  | tail _ hs ih => exact hs.ordered ih

/-- C18: in every queue state with more than one node, the loop body removes
first a node `l` and then a node `r` such that no node left in the queue is
lighter than `l` or lighter than `r` (and `l` is not heavier than `r`), and
pushes a node of weight `l + r` with left child `l` and right child `r`; and
in the tree built for a histogram with at least one observed symbol, every
internal node has a left child that is not heavier than its right child and a
weight that is the sum of the weights of its children. -/
theorem merge_step_order (P : PriorityQueue) :
    (∀ pq : P.Q, 1 < P.size pq →
      ∃ l r, P.top pq = some l ∧ P.top (P.pop pq) = some r ∧
        mergeStep P pq = some (P.push (P.pop (P.pop pq))
          (HuffmanNode.node 0 (l.probability + r.probability) l r)) ∧
        P.elems pq = l ::ₘ r ::ₘ P.elems (P.pop (P.pop pq)) ∧
        l.probability ≤ r.probability ∧
        ∀ y ∈ P.elems (P.pop (P.pop pq)),
          l.probability ≤ y.probability ∧ r.probability ≤ y.probability) ∧
    (∀ (histogram : Histogram) (totalPixels : Nat), 1 ≤ alphabetSize histogram →
      ∃ root, huffmanRoot P histogram totalPixels = some root ∧ Ordered root) := by
  constructor
  · intro pq hpq
    rw [P.size_eq] at hpq
    obtain ⟨l, r, hl, hr, hstep, he, hH⟩ := mergeStep_spec P pq hpq
    have hlmin := P.top_le pq l hl
    have hrmin := P.top_le (P.pop pq) r hr
    have he2 : P.elems (P.pop pq) = r ::ₘ P.elems (P.pop (P.pop pq)) := by
      rw [P.elems_pop pq l hl, he, Multiset.erase_cons_head]
    refine ⟨l, r, hl, hr, hstep, he, ?_, ?_⟩
    · exact hlmin r (by rw [he]; simp)
    · intro y hy
      exact ⟨hlmin y (by rw [he]; simp [hy]), hrmin y (by rw [he2]; simp [hy])⟩
  · intro histogram totalPixels hA
    obtain ⟨q, root, -, -, -, hroot, -, -, hrun⟩ :=
      huffmanRoot_spec P histogram totalPixels hA
    refine ⟨root, hroot, ?_⟩
    refine hrun_ordered hrun ?_ root (by simp)
    intro t ht
    rw [pushLeaves_elems] at ht
    obtain ⟨i, -, rfl⟩ := List.mem_map.mp (Multiset.mem_coe.mp ht)
    exact ordered_newNode _ _

set_option maxRecDepth 100000 in
theorem merge_step_order_witness :
    (1 < listQueue.size (pushLeaves listQueue threeSymbols 7) ∧
      1 ≤ alphabetSize threeSymbols) ∧
    (∃ l r, listQueue.top (pushLeaves listQueue threeSymbols 7) = some l ∧
        listQueue.top (listQueue.pop (pushLeaves listQueue threeSymbols 7)) = some r ∧
        mergeStep listQueue (pushLeaves listQueue threeSymbols 7) =
          some (listQueue.push
            (listQueue.pop (listQueue.pop (pushLeaves listQueue threeSymbols 7)))
            (HuffmanNode.node 0 (l.probability + r.probability) l r)) ∧
        listQueue.elems (pushLeaves listQueue threeSymbols 7) =
          l ::ₘ r ::ₘ listQueue.elems
            (listQueue.pop (listQueue.pop (pushLeaves listQueue threeSymbols 7))) ∧
        l.probability ≤ r.probability ∧
        ∀ y ∈ listQueue.elems
            (listQueue.pop (listQueue.pop (pushLeaves listQueue threeSymbols 7))),
          l.probability ≤ y.probability ∧ r.probability ≤ y.probability) ∧
    ∃ root, huffmanRoot listQueue threeSymbols 7 = some root ∧ Ordered root :=
  ⟨⟨by decide, by decide⟩,
    (merge_step_order listQueue).1 (pushLeaves listQueue threeSymbols 7) (by decide),
    (merge_step_order listQueue).2 threeSymbols 7 (by decide)⟩

/-! ## Height and recursion depth -/

theorem height_lt_leaves {t : HuffmanNode} (ht : IsTree t) :
    height t + 1 ≤ (leaves t).length := by
  induction t with
  | null => exact absurd ht (by simp [IsTree])
  | node v p l r ihl ihr =>
    rcases ht with ⟨hl, hr⟩ | ⟨hl, hr⟩
    · subst hl hr
      simp [height, leaves, HuffmanNode.isNull]
    · rw [leaves_node_of_isTree v p hl, List.length_append]
      have h1 := ihl hl
      have h2 := ihr hr
      simp only [height, hl.isNull, Bool.false_and, Bool.false_eq_true, if_false]
      omega

theorem leafInfo_length_le (t : HuffmanNode) (code : List Char) :
    ∀ x ∈ leafInfo t code, x.2.2.length ≤ code.length + height t := by
  induction t generalizing code with
  | null => intro x hx; simp [leafInfo] at hx
  | node v p l r ihl ihr =>
    intro x hx
    by_cases h : (l.isNull && r.isNull) = true
    · have hl : l = .null := (HuffmanNode.isNull_iff l).mp (by simp at h; exact h.1)
      have hr : r = .null := (HuffmanNode.isNull_iff r).mp (by simp at h; exact h.2)
      subst hl hr
      simp only [leafInfo, HuffmanNode.isNull, Bool.and_self, if_true, List.append_nil,
        List.mem_singleton] at hx
      subst hx
      simp
    · simp only [leafInfo, h, if_false, List.nil_append, List.mem_append,
        Bool.false_eq_true] at hx
      simp only [height, h, if_false, Bool.false_eq_true]
      rcases hx with hx | hx
      · have := ihl _ x hx
        simp only [List.length_append, List.length_singleton] at this
        omega
      · have := ihr _ x hx
        simp only [List.length_append, List.length_singleton] at this
        omega

theorem callDepth_eq {t : HuffmanNode} (ht : IsTree t) : callDepth t = height t + 2 := by
  induction t with
  | null => exact absurd ht (by simp [IsTree])
  | node v p l r ihl ihr =>
    rcases ht with ⟨hl, hr⟩ | ⟨hl, hr⟩
    · subst hl hr
      simp [callDepth, height, HuffmanNode.isNull]
    · simp only [callDepth, height, hl.isNull, Bool.false_and, Bool.false_eq_true, if_false,
        ihl hl, ihr hr]
      omega

theorem freeHuffmanTree_eq {t : HuffmanNode} (ht : IsTree t) :
    freeHuffmanTree t + 1 = 2 * (leaves t).length := by
  induction t with
  | null => exact absurd ht (by simp [IsTree])
  | node v p l r ihl ihr =>
    rcases ht with ⟨hl, hr⟩ | ⟨hl, hr⟩
    · subst hl hr
      simp [freeHuffmanTree, leaves, HuffmanNode.isNull]
    · rw [leaves_node_of_isTree v p hl, List.length_append]
      have h1 := ihl hl
      have h2 := ihr hr
      simp only [freeHuffmanTree]
      omega

theorem alphabetSize_le (histogram : Histogram) : alphabetSize histogram ≤ 256 := by
  unfold alphabetSize observed
  have := List.length_filter_le (fun i => decide (histogram i > 0)) (List.range 256)
  simpa using this

/-- C19 (the claim fails as stated): for a 4 by 4 grid of sevens the alphabet
size is 1 and the root is a leaf of height 0, yet `generateHuffmanCodes` and
`freeHuffmanTree` call themselves on the two null children of the leaf, so 2
calls are nested, more than A - 1 = 0. -/
theorem callDepth_exceeds :
    ∃ root, huffmanRoot listQueue (computeHistogram (constantImage 4 4 7))
        (totalPixels (constantImage 4 4 7)) = some root ∧
      alphabetSize (computeHistogram (constantImage 4 4 7)) - 1 = 0 ∧
      height root = 0 ∧ callDepth root = 2 := by
  have hc := computeHistogram_constant (constantImage 4 4 7) 7 (by decide) (fun _ _ _ _ => rfl)
  have hs := (single_symbol_spec listQueue 7 (totalPixels (constantImage 4 4 7)) (by decide)
    (by decide)).1
  rw [← hc] at hs
  refine ⟨_, hs, ?_, rfl, rfl⟩
  rw [hc, alphabetSize, observed_single 7 _ (by decide) (by decide)]
  rfl

/-- C19 (amended): for every histogram with alphabet size A >= 1, the height
of the constructed tree, and so every code length in the table, is at most
A - 1 <= 255; the number of nested calls of `generateHuffmanCodes` and of
`freeHuffmanTree` on the root is the height plus 2 (the calls on the null
children of the deepest leaf included), at most A + 1 <= 257; both functions
are total, and `freeHuffmanTree` deletes each of the 2 A - 1 nodes once. -/
theorem height_bound (P : PriorityQueue) (histogram : Histogram) (totalPixels : Nat)
    (hA : 1 ≤ alphabetSize histogram) :
    ∃ root table, huffmanRoot P histogram totalPixels = some root ∧
      huffmanCodes P histogram totalPixels = some table ∧
      table = generateHuffmanCodes root [] [] ∧
      height root ≤ alphabetSize histogram - 1 ∧
      alphabetSize histogram - 1 ≤ 255 ∧
      (∀ s e, CodeMap.find table s = some e → e.1 ≤ alphabetSize histogram - 1) ∧
      callDepth root = height root + 2 ∧
      callDepth root ≤ alphabetSize histogram + 1 ∧
      alphabetSize histogram + 1 ≤ 257 ∧
      freeHuffmanTree root = 2 * alphabetSize histogram - 1 := by
  obtain ⟨root, hroot, htree, hperm, hnd, htable⟩ :=
    huffmanCodes_spec P histogram totalPixels hA
  have hlen : (leaves root).length = alphabetSize histogram := by
    rw [hperm.length_eq, List.length_map]; rfl
  have hh : height root ≤ alphabetSize histogram - 1 := by
    have := height_lt_leaves htree
    omega
  have h256 := alphabetSize_le histogram
  refine ⟨root, _, hroot, htable, (generateHuffmanCodes_of_nodup root hnd).symm, hh,
    by omega, ?_, callDepth_eq htree, ?_, by omega, ?_⟩
  · intro s e he
    obtain ⟨x, hx, -, rfl⟩ := (find_leafInfo root hnd s e).mp he
    have := leafInfo_length_le root [] x hx
    simp only [List.length_nil, zero_add] at this
    exact le_trans this hh
  · rw [callDepth_eq htree]; omega
  · have := freeHuffmanTree_eq htree
    omega

set_option maxRecDepth 100000 in
theorem height_bound_witness :
    1 ≤ alphabetSize threeSymbols ∧
    ∃ root table, huffmanRoot listQueue threeSymbols 7 = some root ∧
      huffmanCodes listQueue threeSymbols 7 = some table ∧
      table = generateHuffmanCodes root [] [] ∧
      height root ≤ alphabetSize threeSymbols - 1 ∧
      alphabetSize threeSymbols - 1 ≤ 255 ∧
      (∀ s e, CodeMap.find table s = some e → e.1 ≤ alphabetSize threeSymbols - 1) ∧
      callDepth root = height root + 2 ∧
      callDepth root ≤ alphabetSize threeSymbols + 1 ∧
      alphabetSize threeSymbols + 1 ≤ 257 ∧
      freeHuffmanTree root = 2 * alphabetSize threeSymbols - 1 :=
  ⟨by decide, height_bound listQueue threeSymbols 7 (by decide)⟩

/-! ## Exit status -/

theorem main_of_grid (P : PriorityQueue) (iter : CodeMap → CodeMap) (cmd : CommandLine)
    (w : World) (image : Mat) (h : w.source cmd.imagePath = some image) :
    main P iter cmd w =
      if cmd.help || !cmd.check then
        some { exitCode := 0, cerr := none, cout := [Printed.helpMessage], file := none }
      else if cmd.imagePath.isEmpty then
        some { exitCode := -1, cerr := some "Error: No image path provided!", cout := [],
               file := none }
      else if totalPixels image == 0 then
        some { exitCode := -1, cerr := some "Error: Could not open or find the image!",
               cout := [], file := none }
      else
        match huffmanCodes P (computeHistogram image) (totalPixels image) with
        | none => none
        | some codes =>
          if !w.canOpen then
            some { exitCode := -1, cerr := some "Error: Could not open file for writing!",
                   cout := [], file := none }
          else
            some { exitCode := 0, cerr := none,
                   cout := [Printed.tableWritten, Printed.statistics],
                   file := some (tableFile iter codes) } := by
  unfold main
  rw [imread_grid w _ image h]
  rfl

/-- The pipeline reads the grid through its histogram only: for two grids
with the same histogram, and with the same queue and map, the constructed
tree, the code table, the statistics and the result of `main` agree. -/
theorem main_of_equal_histograms (P : PriorityQueue) (iter : CodeMap → CodeMap)
    (cmd : CommandLine) (w₁ w₂ : World) (image₁ image₂ : Mat)
    (h₁ : w₁.source cmd.imagePath = some image₁) (h₂ : w₂.source cmd.imagePath = some image₂)
    (hopen : w₁.canOpen = w₂.canOpen)
    (hhist : ∀ s, computeHistogram image₁ s = computeHistogram image₂ s) :
    huffmanRoot P (computeHistogram image₁) (totalPixels image₁) =
      huffmanRoot P (computeHistogram image₂) (totalPixels image₂) ∧
    huffmanCodes P (computeHistogram image₁) (totalPixels image₁) =
      huffmanCodes P (computeHistogram image₂) (totalPixels image₂) ∧
    entropy (computeHistogram image₁) (totalPixels image₁) =
      entropy (computeHistogram image₂) (totalPixels image₂) ∧
    (∀ table, avgCodeLength (computeHistogram image₁) (totalPixels image₁) table =
        avgCodeLength (computeHistogram image₂) (totalPixels image₂) table ∧
      compressionRatio (computeHistogram image₁) (totalPixels image₁) table =
        compressionRatio (computeHistogram image₂) (totalPixels image₂) table) ∧
    main P iter cmd w₁ = main P iter cmd w₂ := by
  have e : computeHistogram image₁ = computeHistogram image₂ := funext hhist
  have eN : totalPixels image₁ = totalPixels image₂ := by
    rw [← histogramTotal_computeHistogram image₁, ← histogramTotal_computeHistogram image₂, e]
  rw [main_of_grid P iter cmd w₁ image₁ h₁, main_of_grid P iter cmd w₂ image₂ h₂, e, eN, hopen]
  exact ⟨rfl, rfl, rfl, fun _ => ⟨rfl, rfl⟩, rfl⟩

/-! ## The width of the exported rows -/

theorem CodeMap.mem_of_find (m : CodeMap) (k : Nat) (v : CodeEntry)
    (h : CodeMap.find m k = some v) : (k, v) ∈ m := by
  induction m with
  | nil => simp [CodeMap.find] at h
  | cons a m ih =>
    obtain ⟨k', v'⟩ := a
    by_cases hk : k' = k
    · simp only [CodeMap.find, if_pos hk, Option.some.injEq] at h
      rw [hk, h]
      exact List.mem_cons_self _ _
    · simp only [CodeMap.find, if_neg hk] at h
      exact List.mem_cons_of_mem _ (ih h)

theorem setw_length (w : Nat) (item : List Char) :
    (setw w item).length = max w item.length := by
  simp only [setw, List.length_append, List.length_replicate]
  omega

theorem repr_length_le (n : Nat) (h : n < 256) : (Nat.repr n).toList.length ≤ 3 := by
  have := Nat.repr_length n 3 (by decide) (by omega)
  exact this

theorem formatRow_length (e : Nat × CodeEntry) (h1 : e.1 < 256) (h2 : e.2.1 < 256) :
    (formatRow e).length = 25 + max 15 e.2.2.length + 1 := by
  have a1 := repr_length_le e.1 h1
  have a2 := repr_length_le e.2.1 h2
  rw [formatRow, List.length_append, List.length_append, List.length_append, setw_length,
    setw_length, setw_length, List.length_singleton]
  omega

set_option maxRecDepth 100000 in
theorem deepHistogram_code :
    histogramTotal deepHistogram = 65536 ∧
    (huffmanCodes listQueue deepHistogram 65536).bind (fun t => CodeMap.find t 0) =
      some (16, ['1', '1', '1', '1', '1', '1', '1', '1', '1', '1', '1', '1', '1', '1', '1',
        '0']) := by
  constructor
  · decide
  · decide!

/-- C15 (the claim fails as stated): the histogram of 65536 samples with counts
1, 1, 2, 4, ..., 32768 for the symbols 0 to 16 gives symbol 0 a code of 16
bits; `setw(15)` does not cut it, and the data row of symbol 0 is 41
characters long before its newline. -/
theorem row_wider_than_forty :
    histogramTotal deepHistogram = 65536 ∧
    ∃ table e, huffmanCodes listQueue deepHistogram 65536 = some table ∧
      e ∈ exportedEntries id table ∧ e.1 = 0 ∧ e.2.1 = 16 ∧
      (formatRow e).length = 41 + 1 := by
  obtain ⟨h0, h⟩ := deepHistogram_code
  refine ⟨h0, ?_⟩
  cases hc : huffmanCodes listQueue deepHistogram 65536 with
  | none => rw [hc] at h; simp at h
  | some table =>
    rw [hc] at h
    simp only [Option.some_bind] at h
    exact ⟨table, _, rfl, CodeMap.mem_of_find table 0 _ h, rfl, rfl,
      formatRow_length _ (by decide) (by decide)⟩

/-- C15 (amended): every data row of the exported table consists of three
right-aligned columns holding the symbol value, the code length and the code
bit string; the first two columns are exactly 12 and 13 characters wide, the
third is 15 characters wide when the code has at most 15 bits and as wide as
the code otherwise. So a data row is 40 characters long before its newline
when the code has at most 15 bits, and its length is 25 plus the code length
for a longer code. -/
theorem formatRow_width (P : PriorityQueue) (iter : CodeMap → CodeMap)
    (hiter : ∀ m, (iter m).Perm m) (histogram : Histogram) (totalPixels : Nat)
    (hN : 0 < totalPixels) (hsum : histogramTotal histogram = totalPixels) :
    ∃ table, huffmanCodes P histogram totalPixels = some table ∧
      tableFile iter table = tableHeader ++ (exportedEntries iter table).map formatRow ∧
      ∀ e ∈ exportedEntries iter table,
        formatRow e = setw 12 (Nat.repr e.1).toList ++ setw 13 (Nat.repr e.2.1).toList ++
          setw 15 e.2.2 ++ ['\n'] ∧
        (setw 12 (Nat.repr e.1).toList).length = 12 ∧
        (setw 13 (Nat.repr e.2.1).toList).length = 13 ∧
        (setw 15 e.2.2).length = max 15 e.2.2.length ∧
        (formatRow e).length = 25 + max 15 e.2.2.length + 1 ∧
        (e.2.2.length ≤ 15 → (formatRow e).length = 40 + 1) := by
  have hA := alphabetSize_pos histogram (by omega)
  obtain ⟨root, -, htree, hperm, hnd, htable⟩ := huffmanCodes_spec P histogram totalPixels hA
  refine ⟨_, htable, rfl, ?_⟩
  intro e he
  have he' : e ∈ (leafInfo root []).map toEntry := (hiter _).mem_iff.mp he
  obtain ⟨x, hx, rfl⟩ := List.mem_map.mp he'
  have hsym : x.1 < 256 := by
    have hl : (x.1, x.2.1) ∈ leaves root := by
      rw [← leafInfo_leaves root []]
      exact List.mem_map.mpr ⟨x, hx, rfl⟩
    obtain ⟨i, hi, hie⟩ := List.mem_map.mp (hperm.mem_iff.mp hl)
    simp only [Prod.mk.injEq] at hie
    rw [← hie.1]
    exact ((mem_observed histogram i).mp hi).1
  have hlen : x.2.2.length < 256 := by
    have h1 := leafInfo_length_le root [] x hx
    have h2 := height_lt_leaves htree
    have h3 : (leaves root).length = alphabetSize histogram := by
      rw [hperm.length_eq, List.length_map]; rfl
    have h4 := alphabetSize_le histogram
    simp only [List.length_nil, zero_add] at h1
    omega
  have h12 : (setw 12 (Nat.repr x.1).toList).length = 12 := by
    rw [setw_length]
    have := repr_length_le x.1 hsym
    omega
  have h13 : (setw 13 (Nat.repr x.2.2.length).toList).length = 13 := by
    rw [setw_length]
    have := repr_length_le x.2.2.length hlen
    omega
  have h15 := setw_length 15 x.2.2
  have hrow : (formatRow (toEntry x)).length = 25 + max 15 x.2.2.length + 1 :=
    formatRow_length (toEntry x) hsym hlen
  refine ⟨rfl, h12, h13, h15, hrow, ?_⟩
  intro hle
  rw [hrow]
  simp only [toEntry] at hle
  omega

set_option maxRecDepth 100000 in
theorem formatRow_width_witness :
    ((∀ m : CodeMap, (List.reverse m).Perm m) ∧ 0 < 7 ∧ histogramTotal threeSymbols = 7) ∧
    ∃ table, huffmanCodes listQueue threeSymbols 7 = some table ∧
      tableFile List.reverse table =
        tableHeader ++ (exportedEntries List.reverse table).map formatRow ∧
      ∀ e ∈ exportedEntries List.reverse table,
        formatRow e = setw 12 (Nat.repr e.1).toList ++ setw 13 (Nat.repr e.2.1).toList ++
          setw 15 e.2.2 ++ ['\n'] ∧
        (setw 12 (Nat.repr e.1).toList).length = 12 ∧
        (setw 13 (Nat.repr e.2.1).toList).length = 13 ∧
        (setw 15 e.2.2).length = max 15 e.2.2.length ∧
        (formatRow e).length = 25 + max 15 e.2.2.length + 1 ∧
        (e.2.2.length ≤ 15 → (formatRow e).length = 40 + 1) :=
  ⟨⟨fun m => List.reverse_perm m, by decide, by decide⟩,
    formatRow_width listQueue List.reverse (fun m => List.reverse_perm m) threeSymbols 7
      (by decide) (by decide)⟩

/-! ## The code lengths of the observed symbols -/

theorem leafInfo_binary (t : HuffmanNode) (code : List Char) :
    ∀ x ∈ leafInfo t code, ∀ ch ∈ x.2.2, ch ∈ code ∨ ch = '0' ∨ ch = '1' := by
  induction t generalizing code with
  | null => intro x hx; simp [leafInfo] at hx
  | node v p l r ihl ihr =>
    intro x hx ch hch
    simp only [leafInfo, List.mem_append] at hx
    rcases hx with hx | hx | hx
    · by_cases h : (l.isNull && r.isNull) = true
      · rw [if_pos h, List.mem_singleton] at hx
        subst hx
        exact Or.inl hch
      · rw [if_neg h] at hx
        exact absurd hx (List.not_mem_nil _)
    · rcases ihl _ x hx ch hch with h | h
      · rcases List.mem_append.mp h with h | h
        · exact Or.inl h
        · exact Or.inr (Or.inl (List.mem_singleton.mp h))
      · exact Or.inr h
    · rcases ihr _ x hx ch hch with h | h
      · rcases List.mem_append.mp h with h | h
        · exact Or.inl h
        · exact Or.inr (Or.inr (List.mem_singleton.mp h))
      · exact Or.inr h

/-- The generated table in terms of the code length of each observed symbol. -/
theorem codeLength_spec (P : PriorityQueue) (histogram : Histogram) (totalPixels : Nat)
    (hN : 0 < totalPixels) (hsum : histogramTotal histogram = totalPixels) :
    ∃ table, huffmanCodes P histogram totalPixels = some table ∧
      table.length = alphabetSize histogram ∧
      PrefixFree table ∧
      (∀ s ∈ observed histogram, ∃ w, CodeMap.find table s = some (codeLength table s, w) ∧
        w.length = codeLength table s ∧ (∀ ch ∈ w, ch = '0' ∨ ch = '1') ∧
        codeLength table s ≤ alphabetSize histogram - 1) ∧
      ((observed histogram).map (fun s => (1 / 2 : ℚ) ^ codeLength table s)).sum = 1 ∧
      avgCodeLength histogram totalPixels table =
        ((observed histogram).map
          (fun s => probabilityOf histogram totalPixels s * (codeLength table s : ℚ))).sum ∧
      (∀ len : Nat → Nat,
        ((observed histogram).map (fun s => (1 / 2 : ℚ) ^ len s)).sum ≤ 1 →
        avgCodeLength histogram totalPixels table ≤
          ((observed histogram).map
            (fun s => probabilityOf histogram totalPixels s * (len s : ℚ))).sum) := by
  have hA := alphabetSize_pos histogram (by omega)
  obtain ⟨root, -, htree, hperm, hnd, htable⟩ := huffmanCodes_spec P histogram totalPixels hA
  have hkeys : ((leaves root).map Prod.fst).Perm (observed histogram) := by
    have := hperm.map Prod.fst
    rw [List.map_map] at this
    have e : List.map (Prod.fst ∘ fun i => (i, probabilityOf histogram totalPixels i))
        (observed histogram) = observed histogram := by
      simp [Function.comp_def]
    rwa [e] at this
  have hlen : (leaves root).length = alphabetSize histogram := by
    rw [hperm.length_eq, List.length_map]; rfl
  have hfind : ∀ x ∈ leafInfo root [],
      CodeMap.find ((leafInfo root []).map toEntry) x.1 = some (x.2.2.length, x.2.2) :=
    fun x hx => (find_leafInfo root hnd _ _).mpr ⟨x, hx, rfl, rfl⟩
  have hcl : ∀ x ∈ leafInfo root [],
      codeLength ((leafInfo root []).map toEntry) x.1 = x.2.2.length := by
    intro x hx
    simp [codeLength, hfind x hx]
  have hsymsum : ∀ g : Nat → ℚ, ((leafInfo root []).map (fun x => g x.1)).sum =
      ((observed histogram).map g).sum := by
    intro g
    have h1 : (leafInfo root []).map (fun x => g x.1) =
        ((leaves root).map Prod.fst).map g := by
      rw [← leafInfo_leaves root [], List.map_map, List.map_map]
      rfl
    rw [h1]
    exact (hkeys.map g).sum_eq
  refine ⟨_, htable, ?_, prefixFree_leafInfo root hnd, ?_, ?_, ?_, ?_⟩
  · have := congrArg List.length (leafInfo_keys root [])
    simp only [List.length_map] at this
    rw [List.length_map, this, hlen]
  · intro s hs
    have hs' : s ∈ (leaves root).map Prod.fst := hkeys.mem_iff.mpr hs
    rw [← leafInfo_leaves root [], List.map_map] at hs'
    obtain ⟨x, hx, rfl⟩ := List.mem_map.mp hs'
    refine ⟨x.2.2, ?_, ?_, ?_, ?_⟩
    · show CodeMap.find _ x.1 = some (codeLength _ x.1, x.2.2)
      rw [hcl x hx]; exact hfind x hx
    · show x.2.2.length = codeLength _ x.1
      rw [hcl x hx]
    · intro ch hch
      rcases leafInfo_binary root [] x hx ch hch with h | h
      · exact absurd h (List.not_mem_nil _)
      · exact h
    · show codeLength _ x.1 ≤ _
      rw [hcl x hx]
      have h1 := leafInfo_length_le root [] x hx
      have h2 := height_lt_leaves htree
      simp only [List.length_nil, zero_add] at h1
      omega
  · rw [← hsymsum (fun s => (1 / 2 : ℚ) ^ codeLength ((leafInfo root []).map toEntry) s)]
    have := kraft_leafInfo root htree []
    simp only [List.length_nil, pow_zero] at this
    refine Eq.trans (congrArg List.sum (List.map_congr_left ?_)) this
    intro x hx
    rw [hcl x hx]
  · rw [avgCodeLength_eq_sum]
    refine congrArg List.sum (List.map_congr_left ?_)
    intro s _
    unfold codeLength
    cases CodeMap.find ((leafInfo root []).map toEntry) s <;> simp
  · intro len hk
    obtain ⟨table', htable', hle⟩ :=
      avgCodeLength_le_pairsCost P histogram totalPixels hN hsum len (by
        rw [pairsKraft, Multiset.map_coe, Multiset.sum_coe, List.map_map]
        exact hk)
    rw [htable] at htable'
    cases htable'
    rw [pairsCost, Multiset.map_coe, Multiset.sum_coe, List.map_map] at hle
    exact hle

/-- The observed symbols of a histogram whose positive counts are those of a
given list of distinct symbols. -/
theorem observed_perm (histogram : Histogram) (l : List Nat) (hl : l.Nodup)
    (hpos : ∀ s ∈ l, s < 256 ∧ 0 < histogram s)
    (hrest : ∀ i < 256, i ∉ l → histogram i = 0) : (observed histogram).Perm l := by
  rw [List.perm_ext_iff_of_nodup (observed_nodup histogram) hl]
  intro i
  rw [mem_observed]
  constructor
  · rintro ⟨h1, h2⟩
    by_contra hni
    have := hrest i h1 hni
    omega
  · exact hpos i

theorem logb_half_pow (k : Nat) : Real.logb 2 ((1 / 2 : ℝ) ^ k) = -(k : ℝ) := by
  have hlog2 : Real.log 2 ≠ 0 := ne_of_gt (Real.log_pos (by norm_num))
  rw [Real.logb, Real.log_pow, show (1 / 2 : ℝ) = 2⁻¹ by norm_num, Real.log_inv]
  field_simp

/-! ## Two symbols of equal frequency -/

theorem binary_word_of_length_one (w : List Char) (hl : w.length = 1)
    (hb : ∀ ch ∈ w, ch = '0' ∨ ch = '1') : w = ['0'] ∨ w = ['1'] := by
  match w, hl, hb with
  | [c], _, hb =>
    rcases hb c (List.mem_singleton.mpr rfl) with h | h
    · exact Or.inl (by rw [h])
    · exact Or.inr (by rw [h])

theorem lengths_one_one (la lb : Nat) (h1 : la ≤ 1) (h2 : lb ≤ 1)
    (hK : (1 / 2 : ℚ) ^ la + ((1 / 2 : ℚ) ^ lb + 0) = 1) : la = 1 ∧ lb = 1 := by
  interval_cases la <;> interval_cases lb <;> norm_num at hK ⊢

/-- C12: for every histogram with exactly two observed symbols of equal count
(so for every grid with such a histogram), each of the two symbols gets a code
of length 1, the two codes are "0" and "1", and the entropy, the expected code
length and the ratio are all 1. -/
theorem two_equal_symbols (P : PriorityQueue) (histogram : Histogram) (totalPixels : Nat)
    (a b n : Nat) (ha : a < 256) (hb : b < 256) (hab : a ≠ b) (hn : 0 < n)
    (hca : histogram a = n) (hcb : histogram b = n)
    (hrest : ∀ i < 256, i ≠ a → i ≠ b → histogram i = 0)
    (hsum : histogramTotal histogram = totalPixels) :
    ∃ table wa wb, huffmanCodes P histogram totalPixels = some table ∧
      table.length = 2 ∧
      CodeMap.find table a = some (1, wa) ∧ CodeMap.find table b = some (1, wb) ∧
      ((wa = ['0'] ∧ wb = ['1']) ∨ (wa = ['1'] ∧ wb = ['0'])) ∧
      entropy histogram totalPixels = 1 ∧
      avgCodeLength histogram totalPixels table = 1 ∧
      compressionRatio histogram totalPixels table = FloatValue.finite 1 := by
  have hobs : (observed histogram).Perm [a, b] := by
    apply observed_perm histogram [a, b] (by simp [hab])
    · intro s hs
      simp only [List.mem_cons, List.mem_singleton, List.not_mem_nil, or_false] at hs
      rcases hs with rfl | rfl
      · exact ⟨ha, by omega⟩
      · exact ⟨hb, by omega⟩
    · intro i hi hni
      simp only [List.mem_cons, List.mem_singleton, List.not_mem_nil, or_false, not_or] at hni
      exact hrest i hi hni.1 hni.2
  have hsumg : ∀ {α : Type} [AddCommMonoid α] (g : Nat → α),
      ((observed histogram).map g).sum = g a + (g b + 0) := by
    intro α _ g
    rw [(hobs.map g).sum_eq]
    rfl
  have hN2 : totalPixels = 2 * n := by
    have := observed_sum histogram
    rw [hsumg histogram, hsum, hca, hcb] at this
    omega
  have hN : 0 < totalPixels := by omega
  have hnq : (n : ℚ) ≠ 0 := by exact_mod_cast (Nat.pos_iff_ne_zero.mp hn)
  have hpa : probabilityOf histogram totalPixels a = 1 / 2 := by
    rw [probabilityOf, hca, hN2]
    push_cast
    field_simp
    ring
  have hpb : probabilityOf histogram totalPixels b = 1 / 2 := by
    rw [probabilityOf, hcb, hN2]
    push_cast
    field_simp
    ring
  have hA : alphabetSize histogram = 2 := by
    rw [alphabetSize, hobs.length_eq]; rfl
  obtain ⟨table, htable, hlen, hpf, hsym, hkraft, havg, -⟩ :=
    codeLength_spec P histogram totalPixels hN hsum
  obtain ⟨wa, hfa, hwa, hba, hla⟩ := hsym a (hobs.mem_iff.mpr (by simp))
  obtain ⟨wb, hfb, hwb, hbb, hlb⟩ := hsym b (hobs.mem_iff.mpr (by simp))
  rw [hA] at hla hlb
  rw [hsumg (fun s => (1 / 2 : ℚ) ^ codeLength table s)] at hkraft
  obtain ⟨e1, e2⟩ := lengths_one_one _ _ hla hlb hkraft
  rw [e1] at hfa hwa
  rw [e2] at hfb hwb
  have hent : entropy histogram totalPixels = 1 := by
    rw [entropy_eq_sum,
      hsumg (fun i => (probabilityOf histogram totalPixels i : ℝ) *
        Real.logb 2 (probabilityOf histogram totalPixels i : ℝ)), hpa, hpb]
    have h := logb_half_pow 1
    rw [pow_one] at h
    push_cast
    rw [h]
    norm_num
  have havg1 : avgCodeLength histogram totalPixels table = 1 := by
    rw [havg, hsumg (fun s => probabilityOf histogram totalPixels s * (codeLength table s : ℚ)),
      hpa, hpb, e1, e2]
    norm_num
  refine ⟨table, wa, wb, htable, by rw [hlen, hA], hfa, hfb, ?_, hent, havg1, ?_⟩
  · have hne : wa ≠ wb := by
      intro e
      exact hpf a b _ _ hab hfa hfb (by rw [e])
    rcases binary_word_of_length_one wa hwa hba with h1 | h1 <;>
      rcases binary_word_of_length_one wb hwb hbb with h2 | h2
    · exact absurd (h1.trans h2.symm) hne
    · exact Or.inl ⟨h1, h2⟩
    · exact Or.inr ⟨h1, h2⟩
    · exact absurd (h1.trans h2.symm) hne
  · rw [compressionRatio, hent, havg1]
    simp [floatDiv]

set_option maxRecDepth 100000 in
theorem two_equal_symbols_witness :
    (10 < 256 ∧ 20 < 256 ∧ 10 ≠ 20 ∧ 0 < 50 ∧ twoSymbols 10 = 50 ∧ twoSymbols 20 = 50 ∧
      (∀ i < 256, i ≠ 10 → i ≠ 20 → twoSymbols i = 0) ∧ histogramTotal twoSymbols = 100) ∧
    ∃ table wa wb, huffmanCodes listQueue twoSymbols 100 = some table ∧
      table.length = 2 ∧
      CodeMap.find table 10 = some (1, wa) ∧ CodeMap.find table 20 = some (1, wb) ∧
      ((wa = ['0'] ∧ wb = ['1']) ∨ (wa = ['1'] ∧ wb = ['0'])) ∧
      entropy twoSymbols 100 = 1 ∧
      avgCodeLength twoSymbols 100 table = 1 ∧
      compressionRatio twoSymbols 100 table = FloatValue.finite 1 :=
  have hrest : ∀ i < 256, i ≠ 10 → i ≠ 20 → twoSymbols i = 0 := fun i _ h1 h2 => by
    simp [twoSymbols, h1, h2]
  ⟨⟨by decide, by decide, by decide, by decide, rfl, rfl, hrest, by decide⟩,
    two_equal_symbols listQueue twoSymbols 100 10 20 50 (by decide) (by decide) (by decide)
      (by decide) rfl rfl hrest (by decide)⟩

/-! ## The distribution 1/2, 1/4, 1/8, 1/8 -/

theorem lengths_one_two_three (la lb lc ld : Nat) (h1 : la ≤ 3) (h2 : lb ≤ 3) (h3 : lc ≤ 3)
    (h4 : ld ≤ 3)
    (hK : (1 / 2 : ℚ) ^ la + ((1 / 2 : ℚ) ^ lb + ((1 / 2 : ℚ) ^ lc + ((1 / 2 : ℚ) ^ ld + 0)))
      = 1)
    (hC : (1 / 2 : ℚ) * (la : ℚ) + ((1 / 4 : ℚ) * (lb : ℚ) + ((1 / 8 : ℚ) * (lc : ℚ) +
      ((1 / 8 : ℚ) * (ld : ℚ) + 0))) ≤ 7 / 4) :
    la = 1 ∧ lb = 2 ∧ lc = 3 ∧ ld = 3 := by
  interval_cases la <;> interval_cases lb <;> interval_cases lc <;> interval_cases ld <;>
    norm_num at hK hC ⊢

/-- C13: for every histogram with exactly four observed symbols whose counts
are in proportion 4 : 2 : 1 : 1 (probabilities 1/2, 1/4, 1/8, 1/8), whatever
the symbol values, the generated code lengths are 1, 2, 3 and 3 respectively,
the expected code length and the entropy are both 7/4 = 1.75, and the ratio is
1. -/
theorem skewed_four_symbols (P : PriorityQueue) (histogram : Histogram) (totalPixels : Nat)
    (a b c d n : Nat) (ha : a < 256) (hb : b < 256) (hc : c < 256) (hd : d < 256)
    (hnd : [a, b, c, d].Nodup) (hn : 0 < n)
    (hca : histogram a = 4 * n) (hcb : histogram b = 2 * n) (hcc : histogram c = n)
    (hcd : histogram d = n)
    (hrest : ∀ i < 256, i ∉ [a, b, c, d] → histogram i = 0)
    (hsum : histogramTotal histogram = totalPixels) :
    ∃ table wa wb wc wd, huffmanCodes P histogram totalPixels = some table ∧
      CodeMap.find table a = some (1, wa) ∧ CodeMap.find table b = some (2, wb) ∧
      CodeMap.find table c = some (3, wc) ∧ CodeMap.find table d = some (3, wd) ∧
      avgCodeLength histogram totalPixels table = 7 / 4 ∧
      entropy histogram totalPixels = 7 / 4 ∧
      compressionRatio histogram totalPixels table = FloatValue.finite 1 := by
  have hobs : (observed histogram).Perm [a, b, c, d] := by
    apply observed_perm histogram [a, b, c, d] hnd
    · intro s hs
      simp only [List.mem_cons, List.mem_singleton, List.not_mem_nil, or_false] at hs
      rcases hs with rfl | rfl | rfl | rfl
      · exact ⟨ha, by omega⟩
      · exact ⟨hb, by omega⟩
      · exact ⟨hc, by omega⟩
      · exact ⟨hd, by omega⟩
    · exact hrest
  have hsumg : ∀ {α : Type} [AddCommMonoid α] (g : Nat → α),
      ((observed histogram).map g).sum = g a + (g b + (g c + (g d + 0))) := by
    intro α _ g
    rw [(hobs.map g).sum_eq]
    rfl
  have hN8 : totalPixels = 8 * n := by
    have := observed_sum histogram
    rw [hsumg histogram, hsum, hca, hcb, hcc, hcd] at this
    omega
  have hN : 0 < totalPixels := by omega
  have hnq : (n : ℚ) ≠ 0 := by exact_mod_cast (Nat.pos_iff_ne_zero.mp hn)
  have hpa : probabilityOf histogram totalPixels a = 1 / 2 := by
    rw [probabilityOf, hca, hN8]; push_cast; field_simp; ring
  have hpb : probabilityOf histogram totalPixels b = 1 / 4 := by
    rw [probabilityOf, hcb, hN8]; push_cast; field_simp; ring
  have hpc : probabilityOf histogram totalPixels c = 1 / 8 := by
    rw [probabilityOf, hcc, hN8]; push_cast; field_simp; ring
  have hpd : probabilityOf histogram totalPixels d = 1 / 8 := by
    rw [probabilityOf, hcd, hN8]; push_cast; field_simp; ring
  have hA : alphabetSize histogram = 4 := by
    rw [alphabetSize, hobs.length_eq]; rfl
  simp only [List.nodup_cons, List.mem_cons, List.mem_singleton, List.not_mem_nil, or_false,
    not_or, List.nodup_nil, and_true, not_false_eq_true] at hnd
  obtain ⟨⟨hab, hac, had⟩, ⟨hbc, hbd⟩, hcd'⟩ := hnd
  obtain ⟨table, htable, -, -, hsym, hkraft, havg, hopt⟩ :=
    codeLength_spec P histogram totalPixels hN hsum
  obtain ⟨wa, hfa, -, -, hla⟩ := hsym a (hobs.mem_iff.mpr (by simp))
  obtain ⟨wb, hfb, -, -, hlb⟩ := hsym b (hobs.mem_iff.mpr (by simp))
  obtain ⟨wc, hfc, -, -, hlc⟩ := hsym c (hobs.mem_iff.mpr (by simp))
  obtain ⟨wd, hfd, -, -, hld⟩ := hsym d (hobs.mem_iff.mpr (by simp))
  rw [hA] at hla hlb hlc hld
  rw [hsumg (fun s => (1 / 2 : ℚ) ^ codeLength table s)] at hkraft
  have hbest := hopt (fun s => if s = a then 1 else if s = b then 2 else 3) (by
    rw [hsumg (fun s => (1 / 2 : ℚ) ^ (if s = a then 1 else if s = b then 2 else 3))]
    simp only [if_true, if_neg (Ne.symm hab), if_neg (Ne.symm hac), if_neg (Ne.symm had),
      if_neg (Ne.symm hbc), if_neg (Ne.symm hbd)]
    norm_num)
  rw [hsumg (fun s => probabilityOf histogram totalPixels s *
      (((if s = a then 1 else if s = b then 2 else 3 : Nat)) : ℚ)), hpa, hpb, hpc, hpd] at hbest
  simp only [if_true, if_neg (Ne.symm hab), if_neg (Ne.symm hac), if_neg (Ne.symm had),
    if_neg (Ne.symm hbc), if_neg (Ne.symm hbd)] at hbest
  have havg' := havg
  rw [hsumg (fun s => probabilityOf histogram totalPixels s * (codeLength table s : ℚ)),
    hpa, hpb, hpc, hpd] at havg'
  have hC : (1 / 2 : ℚ) * (codeLength table a : ℚ) + ((1 / 4 : ℚ) * (codeLength table b : ℚ) +
      ((1 / 8 : ℚ) * (codeLength table c : ℚ) + ((1 / 8 : ℚ) * (codeLength table d : ℚ) + 0)))
      ≤ 7 / 4 := by
    rw [← havg']
    refine le_trans hbest ?_
    norm_num
  obtain ⟨e1, e2, e3, e4⟩ := lengths_one_two_three _ _ _ _ (by omega) (by omega) (by omega)
    (by omega) hkraft hC
  rw [e1] at hfa
  rw [e2] at hfb
  rw [e3] at hfc
  rw [e4] at hfd
  have havg1 : avgCodeLength histogram totalPixels table = 7 / 4 := by
    rw [havg', e1, e2, e3, e4]
    norm_num
  have hent : entropy histogram totalPixels = 7 / 4 := by
    rw [entropy_eq_sum,
      hsumg (fun i => (probabilityOf histogram totalPixels i : ℝ) *
        Real.logb 2 (probabilityOf histogram totalPixels i : ℝ)), hpa, hpb, hpc, hpd]
    have h1 := logb_half_pow 1
    have h2 := logb_half_pow 2
    have h3 := logb_half_pow 3
    rw [pow_one] at h1
    rw [show ((1 / 2 : ℝ)) ^ 2 = 1 / 4 by norm_num] at h2
    rw [show ((1 / 2 : ℝ)) ^ 3 = 1 / 8 by norm_num] at h3
    push_cast
    rw [h1, h2, h3]
    norm_num
  refine ⟨table, wa, wb, wc, wd, htable, hfa, hfb, hfc, hfd, havg1, hent, ?_⟩
  rw [compressionRatio, hent, havg1]
  simp [floatDiv]

set_option maxRecDepth 100000 in
theorem skewed_four_symbols_witness :
    (40 < 256 ∧ 30 < 256 ∧ 20 < 256 ∧ 10 < 256 ∧ [40, 30, 20, 10].Nodup ∧ 0 < 1 ∧
      skewed 40 = 4 * 1 ∧ skewed 30 = 2 * 1 ∧ skewed 20 = 1 ∧ skewed 10 = 1 ∧
      (∀ i < 256, i ∉ [40, 30, 20, 10] → skewed i = 0) ∧ histogramTotal skewed = 8) ∧
    ∃ table wa wb wc wd, huffmanCodes listQueue skewed 8 = some table ∧
      CodeMap.find table 40 = some (1, wa) ∧ CodeMap.find table 30 = some (2, wb) ∧
      CodeMap.find table 20 = some (3, wc) ∧ CodeMap.find table 10 = some (3, wd) ∧
      avgCodeLength skewed 8 table = 7 / 4 ∧
      entropy skewed 8 = 7 / 4 ∧
      compressionRatio skewed 8 table = FloatValue.finite 1 :=
  have hrest : ∀ i < 256, i ∉ [40, 30, 20, 10] → skewed i = 0 := fun i _ h => by
    simp only [List.mem_cons, List.mem_singleton, List.not_mem_nil, or_false, not_or] at h
    simp [skewed, h.1, h.2.1, h.2.2.1, h.2.2.2]
  ⟨⟨by decide, by decide, by decide, by decide, by decide, by decide, rfl, rfl, rfl, rfl,
      hrest, by decide⟩,
    skewed_four_symbols listQueue skewed 8 40 30 20 10 1 (by decide) (by decide) (by decide)
      (by decide) (by decide) (by decide) rfl rfl rfl rfl hrest (by decide)⟩

/-! ## Rounded weights -/

end Huffman
